import Mathlib

/-!
Verification of MatrixLib (`src/matrix.h`).

The C++ class `matrix::matrix<T>` is a dense row-major 2D container with
checked element access, arithmetic operators, transpose, minor and a
recursive cofactor determinant.  This file gives a shallow embedding of the
class: the fields `m_rows`, `m_columns`, `m_data` become a structure, every
throwing operation returns `Except ErrorCode`, and the imperative loops
become `List.foldlM` over `List.range`, with every element read and write
going through the same bounds checks as `matrix<T>::operator()`.

The element type `T` is kept generic, constrained exactly as the source
requires (default construction plus `+`, binary `-`, unary `-`, `*`); the
C++ value `T()` is `default`.  The embedding is pure, so the fact that
operands of a failed or successful operation are never mutated holds by
construction.
-/

namespace MatrixLib

/-- Error codes, copied from the `__error_code` enum of `matrix.h`. -/
inductive ErrorCode where
  | ERR_ROW_RANGE
  | ERR_COL_RANGE
  | ERR_INVALID_SIZE
  | ERR_INCOMPATIBLE
  | ERR_NOT_SQUARE
deriving DecidableEq

instance {ε α : Type} [DecidableEq ε] [DecidableEq α] : DecidableEq (Except ε α) := fun x y =>
  match x, y with
  | .error a, .error b =>
    if h : a = b then .isTrue (by rw [h]) else .isFalse (by simp [h])
  | .error _, .ok _ => .isFalse (by simp)
  | .ok _, .error _ => .isFalse (by simp)
  | .ok a, .ok b =>
    if h : a = b then .isTrue (by rw [h]) else .isFalse (by simp [h])

/-- The private state of `matrix::matrix<T>`: `size_t m_rows`, `size_t m_columns`
and `std::vector<T> m_data` (row-major, element `(r, c)` at `r * m_columns + c`). -/
structure matrix (T : Type) where
  m_rows : Nat
  m_columns : Nat
  m_data : List T
deriving DecidableEq

variable {T : Type} [Inhabited T] [Add T] [Sub T] [Neg T] [Mul T]

/-- Accessor `matrix<T>::rows()`. -/
def matrix.rows (a : matrix T) : Nat := a.m_rows

/-- Accessor `matrix<T>::columns()`. -/
def matrix.columns (a : matrix T) : Nat := a.m_columns

/-- The class invariant implied by the constructor: positive dimensions and a
backing vector of exactly `rows * columns` elements. -/
def matrix.wellFormed (a : matrix T) : Prop :=
  1 ≤ a.m_rows ∧ 1 ≤ a.m_columns ∧ a.m_data.length = a.m_rows * a.m_columns

instance (a : matrix T) : Decidable a.wellFormed := by
  unfold matrix.wellFormed
  exact inferInstance

/-- The constructor `matrix(size_t rows, size_t columns, T fill = T())`: rejects
`rows < 1 || columns < 1` with `ERR_INVALID_SIZE`, otherwise resizes the data
vector to `rows * columns` and overwrites every slot with `fill`. -/
def mk_matrix (rows columns : Nat) (fill : T) : Except ErrorCode (matrix T) :=
  if rows < 1 ∨ columns < 1 then .error .ERR_INVALID_SIZE
  else .ok ⟨rows, columns, List.replicate (rows * columns) fill⟩

/-- Row-major access to the backing vector, `m_data[row * m_columns + column]`:
the raw read performed by `operator()` after its bounds checks pass. -/
def matrix.entry (a : matrix T) (row column : Nat) : T :=
  a.m_data.getD (row * a.m_columns + column) default

/-- `T& operator()(size_t, size_t)` used as an rvalue: bounds checks in source
order (row first, then column), then the row-major read. -/
def matrix.get (a : matrix T) (row column : Nat) : Except ErrorCode T :=
  if row ≥ a.m_rows then .error .ERR_ROW_RANGE
  else if column ≥ a.m_columns then .error .ERR_COL_RANGE
  else .ok (a.entry row column)

/-- `T& operator()(size_t, size_t)` used as an lvalue: the same bounds checks,
then a write through `m_data[row * m_columns + column]`. -/
def matrix.set (a : matrix T) (row column : Nat) (v : T) : Except ErrorCode (matrix T) :=
  if row ≥ a.m_rows then .error .ERR_ROW_RANGE
  else if column ≥ a.m_columns then .error .ERR_COL_RANGE
  else .ok { a with m_data := a.m_data.set (row * a.m_columns + column) v }

/-- `matrix<T> row_vector(size_t row)`: a `(1, m_columns)` result filled by
`result(0, column) = (*this)(row, column)` for each column. -/
def matrix.row_vector (a : matrix T) (row : Nat) : Except ErrorCode (matrix T) :=
  if row ≥ a.m_rows then .error .ERR_ROW_RANGE
  else do
    let result ← mk_matrix 1 a.m_columns default
    (List.range a.m_columns).foldlM (fun result column => do
      let v ← a.get row column
      result.set 0 column v) result

/-- `matrix<T> column_vector(size_t column)`: note the source constructs the
result with shape `(m_columns, 1)` and then loops `row` over `[0, m_rows)`
writing `result(row, 0)`, exactly as reproduced here. -/
def matrix.column_vector (a : matrix T) (column : Nat) : Except ErrorCode (matrix T) :=
  if column ≥ a.m_columns then .error .ERR_COL_RANGE
  else do
    let result ← mk_matrix a.m_columns 1 default
    (List.range a.m_rows).foldlM (fun result row => do
      let v ← a.get row column
      result.set row 0 v) result

/-- `matrix<T>& transform(L&& lambda)`: calls the visitor on every cell in
row-major order through the checked `operator()` reference; the visitor is
modelled as a pure update function of `(row, column, current value)`. -/
def matrix.transform (a : matrix T) (lam : Nat → Nat → T → T) : Except ErrorCode (matrix T) :=
  (List.range a.m_rows).foldlM (fun result row =>
    (List.range a.m_columns).foldlM (fun result column => do
      let v ← result.get row column
      result.set row column (lam row column v)) result) a

/-- `matrix<T>& operator=(std::initializer_list<T>)`: rejects a list whose
size differs from `m_rows * m_columns` with `ERR_INCOMPATIBLE`, otherwise
replaces `m_data` wholesale. -/
def matrix.assign (a : matrix T) (operand : List T) : Except ErrorCode (matrix T) :=
  if a.m_rows * a.m_columns ≠ operand.length then .error .ERR_INCOMPATIBLE
  else .ok { a with m_data := operand }

/-- `matrix<T> operator+(matrix<T>&)`: dimension check, then
`result(r, c) = (*this)(r, c) + operand(r, c)` over all cells. -/
def matrix.add (a b : matrix T) : Except ErrorCode (matrix T) :=
  if a.m_rows ≠ b.m_rows ∨ a.m_columns ≠ b.m_columns then .error .ERR_INCOMPATIBLE
  else do
    let result ← mk_matrix a.m_rows a.m_columns default
    (List.range a.m_rows).foldlM (fun result row =>
      (List.range a.m_columns).foldlM (fun result column => do
        let x ← a.get row column
        let y ← b.get row column
        result.set row column (x + y)) result) result

/-- `matrix<T> operator-(matrix<T>&)`: dimension check, then
`result(r, c) = (*this)(r, c) - operand(r, c)` over all cells. -/
def matrix.sub (a b : matrix T) : Except ErrorCode (matrix T) :=
  if a.m_rows ≠ b.m_rows ∨ a.m_columns ≠ b.m_columns then .error .ERR_INCOMPATIBLE
  else do
    let result ← mk_matrix a.m_rows a.m_columns default
    (List.range a.m_rows).foldlM (fun result row =>
      (List.range a.m_columns).foldlM (fun result column => do
        let x ← a.get row column
        let y ← b.get row column
        result.set row column (x - y)) result) result

/-- `matrix<T> operator-()`: as in the source, the loop body is
`result(row, column) = -result(row, column);` — it reads back from the
freshly default-filled `result`, not from `*this`. -/
def matrix.neg (a : matrix T) : Except ErrorCode (matrix T) := do
  let result ← mk_matrix a.m_rows a.m_columns default
  (List.range a.m_rows).foldlM (fun result row =>
    (List.range a.m_columns).foldlM (fun result column => do
      let v ← result.get row column
      result.set row column (-v)) result) result

/-- `matrix<T> operator*(T operand)`: as in the source, the loop body is
`result(row, column) = result(row, column) + operand;` — it accumulates the
scalar onto the default-filled `result` and never reads `*this`. -/
def matrix.scalar_mul (a : matrix T) (operand : T) : Except ErrorCode (matrix T) := do
  let result ← mk_matrix a.m_rows a.m_columns default
  (List.range a.m_rows).foldlM (fun result row =>
    (List.range a.m_columns).foldlM (fun result column => do
      let v ← result.get row column
      result.set row column (v + operand)) result) result

/-- `matrix<T> operator*(matrix<T>)`: dimension check `m_columns == operand.m_rows`,
result of shape `(m_rows, operand.m_columns)`, innermost loop
`result(row, column) = result(row, column) + (*this)(row, element) * operand(element, column)`. -/
def matrix.mat_mul (a : matrix T) (operand : matrix T) : Except ErrorCode (matrix T) :=
  if a.m_columns ≠ operand.m_rows then .error .ERR_INCOMPATIBLE
  else do
    let result ← mk_matrix a.m_rows operand.m_columns default
    (List.range a.m_rows).foldlM (fun result row =>
      (List.range operand.m_columns).foldlM (fun result column =>
        (List.range a.m_columns).foldlM (fun result element => do
          let acc ← result.get row column
          let x ← a.get row element
          let y ← operand.get element column
          result.set row column (acc + x * y)) result) result) result

/-- `matrix<T> transpose()`: result of shape `(m_columns, m_rows)` filled by
`result(column, row) = (*this)(row, column)`. -/
def matrix.transpose (a : matrix T) : Except ErrorCode (matrix T) := do
  let result ← mk_matrix a.m_columns a.m_rows default
  (List.range a.m_rows).foldlM (fun result row =>
    (List.range a.m_columns).foldlM (fun result column => do
      let v ← a.get row column
      result.set column row v) result) result

/-- `matrix<T> minor(size_t at_row, size_t at_column)`: a `(m_rows - 1, m_columns - 1)`
result; a running `index` walks the raw `result.m_data` (the source writes
`result.m_data[index++]` without bounds checks, modelled by `List.set`),
skipping the cells of `at_row` and `at_column`. -/
def matrix.minor (a : matrix T) (at_row at_column : Nat) : Except ErrorCode (matrix T) := do
  let result ← mk_matrix (a.m_rows - 1) (a.m_columns - 1) default
  let st ← (List.range a.m_rows).foldlM (fun (st : List T × Nat) row =>
    (List.range a.m_columns).foldlM (fun st column =>
      if row = at_row then pure st
      else if column = at_column then pure st
      else do
        let v ← a.get row column
        pure (st.1.set st.2 v, st.2 + 1)) st) (result.m_data, 0)
  pure { result with m_data := st.1 }

/-- The row-major list of the elements of `a` outside `at_row` and `at_column`,
restricted to source rows below `i`: the contents `minor` is expected to
collect.  With `i = a.m_rows` this is exactly "all elements of `a` except
those in `at_row` or `at_column`, in row-major order". -/
def minor_kept_list (a : matrix T) (at_row at_column : Nat) (i : Nat) : List T :=
  ((List.range i).filter (fun r => r ≠ at_row)).flatMap
    (fun r => ((List.range a.m_columns).filter (fun c => c ≠ at_column)).map
      (fun c => a.entry r c))

/-- `T determinant()`, with the recursion made structural on a fuel argument:
`matrix.determinant` always passes `m_rows` as fuel, and each recursive call
is on a minor with one row fewer, so the fuel never runs out on the paths the
source can reach (the fuel-zero branch is unreachable from `determinant`). -/
def matrix.detGo : Nat → matrix T → Except ErrorCode T
  | n, a =>
    if a.m_rows ≠ a.m_columns then .error .ERR_NOT_SQUARE
    else if a.m_rows = 1 then a.get 0 0
    else if a.m_rows = 2 then do
      let x00 ← a.get 0 0
      let x11 ← a.get 1 1
      let x10 ← a.get 1 0
      let x01 ← a.get 0 1
      pure (x00 * x11 - x10 * x01)
    else
      match n with
      | 0 => .ok default
      | n + 1 =>
        (List.range a.m_rows).foldlM (fun result row => do
          let sub_matrix ← a.minor row 0
          let d ← matrix.detGo n sub_matrix
          let x ← a.get row 0
          pure (if row % 2 = 0 then result + x * d else result - x * d)) default

/-- `T determinant()`: `ERR_NOT_SQUARE` unless `m_rows == m_columns`; the sole
element for `1x1`; the ad-hoc formula for `2x2`; otherwise cofactor expansion
along column 0, accumulating `(*this)(row, 0) * minor(row, 0).determinant()`
with alternating sign into a running total that starts at `T()`. -/
def matrix.determinant (a : matrix T) : Except ErrorCode T :=
  matrix.detGo a.m_rows a

/-! ### Toolkit: `Except`-monad folds and list index arithmetic -/

theorem ok_bind {ε α β : Type} (a : α) (f : α → Except ε β) :
    (Except.ok a : Except ε α) >>= f = f a := rfl

theorem error_bind {ε α β : Type} (e : ε) (f : α → Except ε β) :
    (Except.error e : Except ε α) >>= f = .error e := rfl

theorem bind_congr_ok {ε α β : Type} (e : Except ε α) (f g : α → Except ε β)
    (h : ∀ x, e = .ok x → f x = g x) : e >>= f = e >>= g := by
  cases e with
  | error a => rfl
  | ok a => exact h a rfl

theorem foldlM_congr_mem {ε σ α : Type} (l : List α) (f g : σ → α → Except ε σ) (init : σ)
    (h : ∀ s x, x ∈ l → f s x = g s x) : l.foldlM f init = l.foldlM g init := by
  induction l generalizing init with
  | nil => rfl
  | cons a t ih =>
    rw [List.foldlM_cons, List.foldlM_cons, h init a (by simp)]
    exact bind_congr_ok _ _ _ fun s _ => ih s fun s' x hx => h s' x (by simp [hx])

theorem foldlM_range_invariant {ε σ : Type} (n : Nat) (f : σ → Nat → Except ε σ)
    (Q : Nat → σ → Prop) (init : σ) (h0 : Q 0 init)
    (hstep : ∀ i s, i < n → Q i s → ∃ s', f s i = .ok s' ∧ Q (i + 1) s') :
    ∃ s, (List.range n).foldlM f init = .ok s ∧ Q n s := by
  induction n with
  | zero => exact ⟨init, rfl, h0⟩
  | succ m ih =>
    obtain ⟨s, hs, hQ⟩ := ih fun i s hi hQ => hstep i s (Nat.lt_succ_of_lt hi) hQ
    obtain ⟨s', hs', hQ'⟩ := hstep m s (Nat.lt_succ_self m) hQ
    refine ⟨s', ?_, hQ'⟩
    rw [List.range_succ, List.foldlM_append, hs, ok_bind]
    simp [List.foldlM_cons, hs']

theorem foldlM_range_error {ε σ : Type} (M K : Nat) (f : σ → Nat → Except ε σ) (init : σ)
    (e : ε) (hK : K < M) (Q : Nat → σ → Prop) (h0 : Q 0 init)
    (hstep : ∀ i s, i < K → Q i s → ∃ s', f s i = .ok s' ∧ Q (i + 1) s')
    (herr : ∀ s, Q K s → f s K = .error e) :
    (List.range M).foldlM f init = .error e := by
  obtain ⟨s, hs, hQ⟩ := foldlM_range_invariant K f Q init h0 hstep
  have hM : M = (K + 1) + (M - K - 1) := by omega
  rw [hM, List.range_add, List.foldlM_append, List.range_succ, List.foldlM_append, hs, ok_bind]
  simp [List.foldlM_cons, herr s hQ]
  rfl

theorem foldlM_pure_id {ε σ α : Type} (l : List α) (s : σ) :
    l.foldlM (fun s _ => (pure s : Except ε σ)) s = .ok s := by
  induction l with
  | nil => rfl
  | cons a t ih => simpa [List.foldlM_cons] using ih

theorem getD_set_eq {α : Type} (l : List α) (i : Nat) (v d : α) (h : i < l.length) :
    (l.set i v).getD i d = v := by
  induction l generalizing i with
  | nil => simp at h
  | cons a t ih =>
    cases i with
    | zero => rfl
    | succ j => simpa using ih j (by simpa using h)

theorem getD_set_ne {α : Type} (l : List α) (i j : Nat) (v d : α) (h : i ≠ j) :
    (l.set i v).getD j d = l.getD j d := by
  induction l generalizing i j with
  | nil => simp
  | cons a t ih =>
    cases i with
    | zero =>
      cases j with
      | zero => exact absurd rfl h
      | succ j' => rfl
    | succ i' =>
      cases j with
      | zero => rfl
      | succ j' => simpa using ih i' j' (by omega)

theorem getD_replicate {α : Type} (n i : Nat) (x d : α) (h : i < n) :
    (List.replicate n x).getD i d = x := by
  induction n generalizing i with
  | zero => omega
  | succ m ih =>
    cases i with
    | zero => rfl
    | succ j => simpa [List.replicate] using ih j (by omega)

theorem set_append_length {α : Type} (l1 l2 : List α) (v : α) :
    (l1 ++ l2).set l1.length v = l1 ++ l2.set 0 v := by
  induction l1 with
  | nil => rfl
  | cons a t ih => simpa using ih

theorem rowmajor_inj (C r c r' c' : Nat) (hc : c < C) (hc' : c' < C)
    (h : r * C + c = r' * C + c') : r = r' ∧ c = c' := by
  have hr : r = r' := by
    rcases Nat.lt_trichotomy r r' with hlt | heq | hgt
    · have : r * C + C ≤ r' * C := by
        have := Nat.mul_le_mul_right C (Nat.succ_le_of_lt hlt)
        simpa [Nat.succ_mul] using this
      omega
    · exact heq
    · have : r' * C + C ≤ r * C := by
        have := Nat.mul_le_mul_right C (Nat.succ_le_of_lt hgt)
        simpa [Nat.succ_mul] using this
      omega
  subst hr
  omega

theorem rowmajor_lt (R C r c : Nat) (hr : r < R) (hc : c < C) : r * C + c < R * C := by
  calc r * C + c < r * C + C := by omega
  _ = (r + 1) * C := by rw [Nat.succ_mul]
  _ ≤ R * C := Nat.mul_le_mul_right C hr

theorem length_filter_ne_range (n t : Nat) :
    ((List.range n).filter (fun x => x ≠ t)).length = if t < n then n - 1 else n := by
  induction n with
  | zero => simp
  | succ m ih =>
    rw [List.range_succ, List.filter_append]
    simp only [List.length_append, ih]
    by_cases h : m = t
    · subst h
      have hone : (List.filter (fun x => x ≠ m) [m]).length = 0 := by simp
      rw [hone]
      split_ifs <;> omega
    · have hone : (List.filter (fun x => x ≠ t) [m]).length = 1 := by simp [h]
      rw [hone]
      split_ifs <;> omega

/-! ### Basic lemmas about the constructor and checked element access -/

theorem mk_matrix_ok (rows columns : Nat) (fill : T) (hr : 1 ≤ rows) (hc : 1 ≤ columns) :
    mk_matrix rows columns fill = .ok ⟨rows, columns, List.replicate (rows * columns) fill⟩ := by
  unfold mk_matrix
  rw [if_neg (by omega)]

theorem mk_matrix_error_iff (rows columns : Nat) (fill : T) :
    mk_matrix rows columns fill = .error .ERR_INVALID_SIZE ↔ rows = 0 ∨ columns = 0 := by
  unfold mk_matrix
  by_cases h : rows < 1 ∨ columns < 1
  · rw [if_pos h]
    simp
    omega
  · rw [if_neg h]
    simp
    omega

theorem mk_matrix_ok_elim (rows columns : Nat) (fill : T) (m : matrix T)
    (h : mk_matrix rows columns fill = .ok m) :
    m = ⟨rows, columns, List.replicate (rows * columns) fill⟩ := by
  unfold mk_matrix at h
  by_cases hc : rows < 1 ∨ columns < 1
  · rw [if_pos hc] at h
    cases h
  · rw [if_neg hc] at h
    exact (Except.ok.injEq .. ▸ h).symm

theorem entry_replicate (R C r c : Nat) (fill : T) (hr : r < R) (hc : c < C) :
    (⟨R, C, List.replicate (R * C) fill⟩ : matrix T).entry r c = fill :=
  getD_replicate _ _ _ _ (rowmajor_lt R C r c hr hc)

theorem get_ok (a : matrix T) (row column : Nat)
    (hr : row < a.m_rows) (hc : column < a.m_columns) :
    a.get row column = .ok (a.entry row column) := by
  unfold matrix.get
  rw [if_neg (by omega), if_neg (by omega)]

theorem set_ok (a : matrix T) (row column : Nat) (v : T)
    (hr : row < a.m_rows) (hc : column < a.m_columns) :
    a.set row column v =
      .ok { a with m_data := a.m_data.set (row * a.m_columns + column) v } := by
  unfold matrix.set
  rw [if_neg (by omega), if_neg (by omega)]

theorem set_row_oob (a : matrix T) (row column : Nat) (v : T) (hr : a.m_rows ≤ row) :
    a.set row column v = .error .ERR_ROW_RANGE := by
  unfold matrix.set
  rw [if_pos (by omega)]

theorem get_set_fuse (m : matrix T) (row column : Nat) (G : T → T) :
    (m.get row column >>= fun v => m.set row column (G v)) =
      m.set row column (G (m.entry row column)) := by
  unfold matrix.get matrix.set
  by_cases h1 : row ≥ m.m_rows
  · rw [if_pos h1, if_pos h1]
    rfl
  · rw [if_neg h1, if_neg h1]
    by_cases h2 : column ≥ m.m_columns
    · rw [if_pos h2, if_pos h2]
      rfl
    · rw [if_neg h2, if_neg h2, ok_bind]
      rw [if_neg h1, if_neg h2]

theorem entry_set_self (a : matrix T) (row column : Nat) (v : T)
    (hc : column < a.m_columns) (hlen : row * a.m_columns + column < a.m_data.length) :
    ({ a with m_data := a.m_data.set (row * a.m_columns + column) v } : matrix T).entry
      row column = v := by
  unfold matrix.entry
  exact getD_set_eq _ _ _ _ hlen

theorem entry_set_other (a : matrix T) (row column r c : Nat) (v : T)
    (hc : column < a.m_columns) (hc' : c < a.m_columns) (hne : ¬(r = row ∧ c = column)) :
    ({ a with m_data := a.m_data.set (row * a.m_columns + column) v } : matrix T).entry
      r c = a.entry r c := by
  unfold matrix.entry
  apply getD_set_ne
  intro hEq
  obtain ⟨h1, h2⟩ := rowmajor_inj a.m_columns row column r c hc hc' hEq
  exact hne ⟨h1.symm, h2.symm⟩

/-! ### Characterization of the cell-writing loops

All the arithmetic loops of `matrix.h` write each target cell through the
checked `operator()`; `foldlM_set_loop1` describes one such loop writing
cell `(p c, q c)` at iteration `c` (injectively), `foldlM_set_loop2` the
row-major nested version, and `foldlM_set_acc` the accumulating innermost
loop of the matrix product, which keeps rewriting a single cell. -/

theorem foldlM_set_loop1 (M : Nat) (p q : Nat → Nat) (F : Nat → T → T) (m0 : matrix T)
    (hlen : m0.m_data.length = m0.m_rows * m0.m_columns)
    (hp : ∀ c, c < M → p c < m0.m_rows) (hq : ∀ c, c < M → q c < m0.m_columns)
    (hinj : ∀ c c', c < M → c' < M → p c = p c' → q c = q c' → c = c') :
    ∃ m, (List.range M).foldlM
        (fun m c => m.set (p c) (q c) (F c (m.entry (p c) (q c)))) m0 = .ok m ∧
      m.m_rows = m0.m_rows ∧ m.m_columns = m0.m_columns ∧
      m.m_data.length = m0.m_data.length ∧
      (∀ c, c < M → m.entry (p c) (q c) = F c (m0.entry (p c) (q c))) ∧
      (∀ r' c', c' < m0.m_columns →
        (∀ c, c < M → ¬(p c = r' ∧ q c = c')) → m.entry r' c' = m0.entry r' c') := by
  have hstep : ∀ (i : Nat) (m : matrix T), i < M →
      (m.m_rows = m0.m_rows ∧ m.m_columns = m0.m_columns ∧
        m.m_data.length = m0.m_data.length ∧
        (∀ c, c < i → m.entry (p c) (q c) = F c (m0.entry (p c) (q c))) ∧
        (∀ r' c', c' < m0.m_columns →
          (∀ c, c < i → ¬(p c = r' ∧ q c = c')) → m.entry r' c' = m0.entry r' c')) →
      ∃ m', m.set (p i) (q i) (F i (m.entry (p i) (q i))) = .ok m' ∧
        (m'.m_rows = m0.m_rows ∧ m'.m_columns = m0.m_columns ∧
          m'.m_data.length = m0.m_data.length ∧
          (∀ c, c < i + 1 → m'.entry (p c) (q c) = F c (m0.entry (p c) (q c))) ∧
          (∀ r' c', c' < m0.m_columns →
            (∀ c, c < i + 1 → ¬(p c = r' ∧ q c = c')) →
            m'.entry r' c' = m0.entry r' c')) := by
    rintro i m hi ⟨hrw, hcw, hlw, hdone, hpres⟩
    have hpi : p i < m.m_rows := by rw [hrw]; exact hp i hi
    have hqi : q i < m.m_columns := by rw [hcw]; exact hq i hi
    have hmlen : m.m_data.length = m.m_rows * m.m_columns := by
      rw [hlw, hrw, hcw]; exact hlen
    have hidx : p i * m.m_columns + q i < m.m_data.length := by
      rw [hmlen]; exact rowmajor_lt _ _ _ _ hpi hqi
    have hread : m.entry (p i) (q i) = m0.entry (p i) (q i) := by
      refine hpres (p i) (q i) (by rw [← hcw]; exact hqi) ?_
      rintro c hc ⟨h1, h2⟩
      exact absurd (hinj c i (hc.trans hi) hi h1 h2) (Nat.ne_of_lt hc)
    refine ⟨_, set_ok m (p i) (q i) _ hpi hqi, ?_, ?_, ?_, ?_, ?_⟩
    · exact hrw
    · exact hcw
    · simpa [List.length_set] using hlw
    · intro c hc
      rcases Nat.lt_succ_iff_lt_or_eq.mp hc with hlt | heq
      · have hne : ¬(p c = p i ∧ q c = q i) := by
          rintro ⟨h1, h2⟩
          exact absurd (hinj c i (hlt.trans hi) hi h1 h2) (Nat.ne_of_lt hlt)
        rw [entry_set_other m (p i) (q i) (p c) (q c) _ hqi
          (by rw [hcw]; exact hq c (hlt.trans hi)) hne]
        exact hdone c hlt
      · subst heq
        rw [entry_set_self m (p c) (q c) _ hqi hidx, hread]
    · intro r' c' hc' hno
      have hne : ¬(p i = r' ∧ q i = c') := hno i (Nat.lt_succ_self i)
      rw [entry_set_other m (p i) (q i) r' c' _ hqi (by rw [hcw]; exact hc')
        (by rintro ⟨h1, h2⟩; exact hne ⟨h1.symm, h2.symm⟩)]
      exact hpres r' c' hc' fun c hc => hno c (Nat.lt_succ_of_lt hc)
  obtain ⟨m, hm, hQ⟩ := foldlM_range_invariant M
    (fun m c => m.set (p c) (q c) (F c (m.entry (p c) (q c))))
    (fun j m => m.m_rows = m0.m_rows ∧ m.m_columns = m0.m_columns ∧
      m.m_data.length = m0.m_data.length ∧
      (∀ c, c < j → m.entry (p c) (q c) = F c (m0.entry (p c) (q c))) ∧
      (∀ r' c', c' < m0.m_columns →
        (∀ c, c < j → ¬(p c = r' ∧ q c = c')) → m.entry r' c' = m0.entry r' c'))
    m0
    ⟨rfl, rfl, rfl, fun c hc => absurd hc (Nat.not_lt_zero c), fun _ _ _ _ => rfl⟩
    hstep
  exact ⟨m, hm, hQ.1, hQ.2.1, hQ.2.2.1,
    fun c hc => hQ.2.2.2.1 c hc, fun r' c' hc' hno => hQ.2.2.2.2 r' c' hc' hno⟩

theorem foldlM_set_loop2 (N M : Nat) (p q : Nat → Nat → Nat) (F : Nat → Nat → T → T)
    (m0 : matrix T)
    (hlen : m0.m_data.length = m0.m_rows * m0.m_columns)
    (hp : ∀ r c, r < N → c < M → p r c < m0.m_rows)
    (hq : ∀ r c, r < N → c < M → q r c < m0.m_columns)
    (hinj : ∀ r c r' c', r < N → c < M → r' < N → c' < M →
      p r c = p r' c' → q r c = q r' c' → r = r' ∧ c = c') :
    ∃ m, (List.range N).foldlM (fun m r => (List.range M).foldlM
        (fun m c => m.set (p r c) (q r c) (F r c (m.entry (p r c) (q r c)))) m) m0 = .ok m ∧
      m.m_rows = m0.m_rows ∧ m.m_columns = m0.m_columns ∧
      m.m_data.length = m0.m_data.length ∧
      (∀ r c, r < N → c < M → m.entry (p r c) (q r c) = F r c (m0.entry (p r c) (q r c))) ∧
      (∀ r' c', c' < m0.m_columns →
        (∀ r c, r < N → c < M → ¬(p r c = r' ∧ q r c = c')) →
        m.entry r' c' = m0.entry r' c') := by
  have hstep : ∀ (i : Nat) (m : matrix T), i < N →
      (m.m_rows = m0.m_rows ∧ m.m_columns = m0.m_columns ∧
        m.m_data.length = m0.m_data.length ∧
        (∀ r c, r < i → c < M → m.entry (p r c) (q r c) = F r c (m0.entry (p r c) (q r c))) ∧
        (∀ r' c', c' < m0.m_columns →
          (∀ r c, r < i → c < M → ¬(p r c = r' ∧ q r c = c')) →
          m.entry r' c' = m0.entry r' c')) →
      ∃ m', (List.range M).foldlM
          (fun m c => m.set (p i c) (q i c) (F i c (m.entry (p i c) (q i c)))) m = .ok m' ∧
        (m'.m_rows = m0.m_rows ∧ m'.m_columns = m0.m_columns ∧
          m'.m_data.length = m0.m_data.length ∧
          (∀ r c, r < i + 1 → c < M →
            m'.entry (p r c) (q r c) = F r c (m0.entry (p r c) (q r c))) ∧
          (∀ r' c', c' < m0.m_columns →
            (∀ r c, r < i + 1 → c < M → ¬(p r c = r' ∧ q r c = c')) →
            m'.entry r' c' = m0.entry r' c')) := by
    rintro i m hi ⟨hrw, hcw, hlw, hdone, hpres⟩
    obtain ⟨m', hm', hrw', hcw', hlw', hdone', hpres'⟩ :=
      foldlM_set_loop1 M (p i) (q i) (F i) m
        (by rw [hlw, hrw, hcw]; exact hlen)
        (fun c hc => by rw [hrw]; exact hp i c hi hc)
        (fun c hc => by rw [hcw]; exact hq i c hi hc)
        (fun c c' hc hc' h1 h2 => (hinj i c i c' hi hc hi hc' h1 h2).2)
    refine ⟨m', hm', hrw'.trans hrw, hcw'.trans hcw, hlw'.trans hlw, ?_, ?_⟩
    · intro r c hr hc
      rcases Nat.lt_succ_iff_lt_or_eq.mp hr with hlt | heq
      · have hcell : m'.entry (p r c) (q r c) = m.entry (p r c) (q r c) := by
          refine hpres' (p r c) (q r c) (by rw [hcw]; exact hq r c (hlt.trans hi) hc) ?_
          rintro c'' hc'' ⟨h1, h2⟩
          exact absurd (hinj i c'' r c hi hc'' (hlt.trans hi) hc h1 h2).1
            (Nat.ne_of_gt hlt)
        rw [hcell]
        exact hdone r c hlt hc
      · subst heq
        have hold : m.entry (p r c) (q r c) = m0.entry (p r c) (q r c) := by
          refine hpres (p r c) (q r c) (hq r c hi hc) ?_
          rintro r'' c'' hr'' hc'' ⟨h1, h2⟩
          exact absurd (hinj r'' c'' r c (hr''.trans hi) hc'' hi hc h1 h2).1
            (Nat.ne_of_lt hr'')
        rw [hdone' c hc, hold]
    · intro r' c' hc' hno
      have h1 : m'.entry r' c' = m.entry r' c' := by
        refine hpres' r' c' (by rw [hcw]; exact hc') ?_
        intro c hc
        exact hno i c (Nat.lt_succ_self i) hc
      rw [h1]
      exact hpres r' c' hc' fun r c hr hc => hno r c (Nat.lt_succ_of_lt hr) hc
  obtain ⟨m, hm, hQ⟩ := foldlM_range_invariant N
    (fun m r => (List.range M).foldlM
      (fun m c => m.set (p r c) (q r c) (F r c (m.entry (p r c) (q r c)))) m)
    (fun i m => m.m_rows = m0.m_rows ∧ m.m_columns = m0.m_columns ∧
      m.m_data.length = m0.m_data.length ∧
      (∀ r c, r < i → c < M → m.entry (p r c) (q r c) = F r c (m0.entry (p r c) (q r c))) ∧
      (∀ r' c', c' < m0.m_columns →
        (∀ r c, r < i → c < M → ¬(p r c = r' ∧ q r c = c')) →
        m.entry r' c' = m0.entry r' c'))
    m0
    ⟨rfl, rfl, rfl, fun r c hr => absurd hr (Nat.not_lt_zero r), fun _ _ _ _ => rfl⟩
    hstep
  exact ⟨m, hm, hQ.1, hQ.2.1, hQ.2.2.1, hQ.2.2.2.1, hQ.2.2.2.2⟩

theorem foldlM_set_acc (K : Nat) (rr cc : Nat) (G : Nat → T → T) (m0 : matrix T)
    (hlen : m0.m_data.length = m0.m_rows * m0.m_columns)
    (hr : rr < m0.m_rows) (hc : cc < m0.m_columns) :
    ∃ m, (List.range K).foldlM
        (fun m el => m.set rr cc (G el (m.entry rr cc))) m0 = .ok m ∧
      m.m_rows = m0.m_rows ∧ m.m_columns = m0.m_columns ∧
      m.m_data.length = m0.m_data.length ∧
      m.entry rr cc = (List.range K).foldl (fun acc el => G el acc) (m0.entry rr cc) ∧
      (∀ r' c', c' < m0.m_columns → ¬(r' = rr ∧ c' = cc) →
        m.entry r' c' = m0.entry r' c') := by
  have hstep : ∀ (i : Nat) (m : matrix T), i < K →
      (m.m_rows = m0.m_rows ∧ m.m_columns = m0.m_columns ∧
        m.m_data.length = m0.m_data.length ∧
        m.entry rr cc = (List.range i).foldl (fun acc el => G el acc) (m0.entry rr cc) ∧
        (∀ r' c', c' < m0.m_columns → ¬(r' = rr ∧ c' = cc) →
          m.entry r' c' = m0.entry r' c')) →
      ∃ m', m.set rr cc (G i (m.entry rr cc)) = .ok m' ∧
        (m'.m_rows = m0.m_rows ∧ m'.m_columns = m0.m_columns ∧
          m'.m_data.length = m0.m_data.length ∧
          m'.entry rr cc = (List.range (i + 1)).foldl (fun acc el => G el acc)
            (m0.entry rr cc) ∧
          (∀ r' c', c' < m0.m_columns → ¬(r' = rr ∧ c' = cc) →
            m'.entry r' c' = m0.entry r' c')) := by
    rintro i m hi ⟨hrw, hcw, hlw, hacc, hpres⟩
    have hri : rr < m.m_rows := by rw [hrw]; exact hr
    have hci : cc < m.m_columns := by rw [hcw]; exact hc
    have hidx : rr * m.m_columns + cc < m.m_data.length := by
      rw [hlw, hlen, hcw]
      exact rowmajor_lt _ _ _ _ hr hc
    refine ⟨_, set_ok m rr cc _ hri hci, hrw, hcw, ?_, ?_, ?_⟩
    · simpa [List.length_set] using hlw
    · rw [entry_set_self m rr cc _ hci hidx, hacc, List.range_succ, List.foldl_append]
      simp
    · intro r' c' hc' hne
      rw [entry_set_other m rr cc r' c' _ hci (by rw [hcw]; exact hc')
        (by rintro ⟨h1, h2⟩; exact hne ⟨h1, h2⟩)]
      exact hpres r' c' hc' hne
  obtain ⟨m, hm, hQ⟩ := foldlM_range_invariant K
    (fun m el => m.set rr cc (G el (m.entry rr cc)))
    (fun i m => m.m_rows = m0.m_rows ∧ m.m_columns = m0.m_columns ∧
      m.m_data.length = m0.m_data.length ∧
      m.entry rr cc = (List.range i).foldl (fun acc el => G el acc) (m0.entry rr cc) ∧
      (∀ r' c', c' < m0.m_columns → ¬(r' = rr ∧ c' = cc) →
        m.entry r' c' = m0.entry r' c'))
    m0
    ⟨rfl, rfl, rfl, rfl, fun _ _ _ _ => rfl⟩
    hstep
  exact ⟨m, hm, hQ.1, hQ.2.1, hQ.2.2.1, hQ.2.2.2.1, hQ.2.2.2.2⟩

/-! ### Specifications of the individual operations -/

theorem add_spec (a b : matrix T) (ha : a.wellFormed) (hb : b.wellFormed)
    (hrows : a.m_rows = b.m_rows) (hcols : a.m_columns = b.m_columns) :
    ∃ m, a.add b = .ok m ∧ m.m_rows = a.m_rows ∧ m.m_columns = a.m_columns ∧
      m.m_data.length = a.m_rows * a.m_columns ∧
      (∀ r c, r < a.m_rows → c < a.m_columns →
        m.entry r c = a.entry r c + b.entry r c) := by
  obtain ⟨hr1, hc1, _⟩ := ha
  unfold matrix.add
  rw [if_neg (by omega), mk_matrix_ok a.m_rows a.m_columns default hr1 hc1, ok_bind]
  obtain ⟨m, hm, h1, h2, h3, h4, _⟩ := foldlM_set_loop2 a.m_rows a.m_columns
    (fun r _ => r) (fun _ c => c) (fun r c _ => a.entry r c + b.entry r c)
    ⟨a.m_rows, a.m_columns, List.replicate (a.m_rows * a.m_columns) default⟩
    (by simp) (fun r c hr hc => hr) (fun r c hr hc => hc)
    (fun r c r' c' _ _ _ _ e1 e2 => ⟨e1, e2⟩)
  refine ⟨m, ?_, h1, h2, by simpa using h3, fun r c hr hc => h4 r c hr hc⟩
  rw [← hm]
  apply foldlM_congr_mem
  intro s row hrow
  apply foldlM_congr_mem
  intro m' c hc
  rw [get_ok a row c (List.mem_range.mp hrow) (List.mem_range.mp hc), ok_bind,
    get_ok b row c (by rw [← hrows]; exact List.mem_range.mp hrow)
      (by rw [← hcols]; exact List.mem_range.mp hc), ok_bind]

theorem sub_spec (a b : matrix T) (ha : a.wellFormed) (hb : b.wellFormed)
    (hrows : a.m_rows = b.m_rows) (hcols : a.m_columns = b.m_columns) :
    ∃ m, a.sub b = .ok m ∧ m.m_rows = a.m_rows ∧ m.m_columns = a.m_columns ∧
      m.m_data.length = a.m_rows * a.m_columns ∧
      (∀ r c, r < a.m_rows → c < a.m_columns →
        m.entry r c = a.entry r c - b.entry r c) := by
  obtain ⟨hr1, hc1, _⟩ := ha
  unfold matrix.sub
  rw [if_neg (by omega), mk_matrix_ok a.m_rows a.m_columns default hr1 hc1, ok_bind]
  obtain ⟨m, hm, h1, h2, h3, h4, _⟩ := foldlM_set_loop2 a.m_rows a.m_columns
    (fun r _ => r) (fun _ c => c) (fun r c _ => a.entry r c - b.entry r c)
    ⟨a.m_rows, a.m_columns, List.replicate (a.m_rows * a.m_columns) default⟩
    (by simp) (fun r c hr hc => hr) (fun r c hr hc => hc)
    (fun r c r' c' _ _ _ _ e1 e2 => ⟨e1, e2⟩)
  refine ⟨m, ?_, h1, h2, by simpa using h3, fun r c hr hc => h4 r c hr hc⟩
  rw [← hm]
  apply foldlM_congr_mem
  intro s row hrow
  apply foldlM_congr_mem
  intro m' c hc
  rw [get_ok a row c (List.mem_range.mp hrow) (List.mem_range.mp hc), ok_bind,
    get_ok b row c (by rw [← hrows]; exact List.mem_range.mp hrow)
      (by rw [← hcols]; exact List.mem_range.mp hc), ok_bind]

theorem transpose_spec (a : matrix T) (ha : a.wellFormed) :
    ∃ m, a.transpose = .ok m ∧ m.m_rows = a.m_columns ∧ m.m_columns = a.m_rows ∧
      m.m_data.length = a.m_columns * a.m_rows ∧
      (∀ r c, r < a.m_rows → c < a.m_columns → m.entry c r = a.entry r c) := by
  obtain ⟨hr1, hc1, _⟩ := ha
  unfold matrix.transpose
  rw [mk_matrix_ok a.m_columns a.m_rows default hc1 hr1, ok_bind]
  obtain ⟨m, hm, h1, h2, h3, h4, _⟩ := foldlM_set_loop2 a.m_rows a.m_columns
    (fun _ c => c) (fun r _ => r) (fun r c _ => a.entry r c)
    ⟨a.m_columns, a.m_rows, List.replicate (a.m_columns * a.m_rows) default⟩
    (by simp) (fun r c hr hc => hc) (fun r c hr hc => hr)
    (fun r c r' c' _ _ _ _ e1 e2 => ⟨e2, e1⟩)
  refine ⟨m, ?_, h1, h2, by simpa using h3, fun r c hr hc => h4 r c hr hc⟩
  rw [← hm]
  apply foldlM_congr_mem
  intro s row hrow
  apply foldlM_congr_mem
  intro m' c hc
  rw [get_ok a row c (List.mem_range.mp hrow) (List.mem_range.mp hc), ok_bind]

theorem neg_spec (a : matrix T) (ha : a.wellFormed) :
    ∃ m, a.neg = .ok m ∧ m.m_rows = a.m_rows ∧ m.m_columns = a.m_columns ∧
      m.m_data.length = a.m_rows * a.m_columns ∧
      (∀ r c, r < a.m_rows → c < a.m_columns → m.entry r c = -(default : T)) := by
  obtain ⟨hr1, hc1, _⟩ := ha
  unfold matrix.neg
  rw [mk_matrix_ok a.m_rows a.m_columns default hr1 hc1, ok_bind]
  obtain ⟨m, hm, h1, h2, h3, h4, _⟩ := foldlM_set_loop2 a.m_rows a.m_columns
    (fun r _ => r) (fun _ c => c) (fun _ _ (v : T) => -v)
    ⟨a.m_rows, a.m_columns, List.replicate (a.m_rows * a.m_columns) default⟩
    (by simp) (fun r c hr hc => hr) (fun r c hr hc => hc)
    (fun r c r' c' _ _ _ _ e1 e2 => ⟨e1, e2⟩)
  refine ⟨m, ?_, h1, h2, by simpa using h3, ?_⟩
  · rw [← hm]
    apply foldlM_congr_mem
    intro s row hrow
    apply foldlM_congr_mem
    intro m' c hc
    rw [get_set_fuse]
  · intro r c hr hc
    have := h4 r c hr hc
    rwa [entry_replicate a.m_rows a.m_columns r c default hr hc] at this

theorem scalar_mul_spec (a : matrix T) (operand : T) (ha : a.wellFormed) :
    ∃ m, a.scalar_mul operand = .ok m ∧ m.m_rows = a.m_rows ∧ m.m_columns = a.m_columns ∧
      m.m_data.length = a.m_rows * a.m_columns ∧
      (∀ r c, r < a.m_rows → c < a.m_columns →
        m.entry r c = (default : T) + operand) := by
  obtain ⟨hr1, hc1, _⟩ := ha
  unfold matrix.scalar_mul
  rw [mk_matrix_ok a.m_rows a.m_columns default hr1 hc1, ok_bind]
  obtain ⟨m, hm, h1, h2, h3, h4, _⟩ := foldlM_set_loop2 a.m_rows a.m_columns
    (fun r _ => r) (fun _ c => c) (fun _ _ (v : T) => v + operand)
    ⟨a.m_rows, a.m_columns, List.replicate (a.m_rows * a.m_columns) default⟩
    (by simp) (fun r c hr hc => hr) (fun r c hr hc => hc)
    (fun r c r' c' _ _ _ _ e1 e2 => ⟨e1, e2⟩)
  refine ⟨m, ?_, h1, h2, by simpa using h3, ?_⟩
  · rw [← hm]
    apply foldlM_congr_mem
    intro s row hrow
    apply foldlM_congr_mem
    intro m' c hc
    rw [get_set_fuse]
  · intro r c hr hc
    have := h4 r c hr hc
    rwa [entry_replicate a.m_rows a.m_columns r c default hr hc] at this

theorem transform_spec (a : matrix T) (lam : Nat → Nat → T → T) (ha : a.wellFormed) :
    ∃ m, a.transform lam = .ok m ∧ m.m_rows = a.m_rows ∧ m.m_columns = a.m_columns ∧
      m.m_data.length = a.m_data.length ∧
      (∀ r c, r < a.m_rows → c < a.m_columns →
        m.entry r c = lam r c (a.entry r c)) := by
  obtain ⟨hr1, hc1, hl1⟩ := ha
  unfold matrix.transform
  obtain ⟨m, hm, h1, h2, h3, h4, _⟩ := foldlM_set_loop2 a.m_rows a.m_columns
    (fun r _ => r) (fun _ c => c) (fun r c v => lam r c v) a
    hl1 (fun r c hr hc => hr) (fun r c hr hc => hc)
    (fun r c r' c' _ _ _ _ e1 e2 => ⟨e1, e2⟩)
  refine ⟨m, ?_, h1, h2, h3, fun r c hr hc => h4 r c hr hc⟩
  rw [← hm]
  apply foldlM_congr_mem
  intro s row hrow
  apply foldlM_congr_mem
  intro m' c hc
  rw [get_set_fuse]

theorem row_vector_spec (a : matrix T) (row : Nat) (ha : a.wellFormed)
    (hrow : row < a.m_rows) :
    ∃ m, a.row_vector row = .ok m ∧ m.m_rows = 1 ∧ m.m_columns = a.m_columns ∧
      m.m_data.length = 1 * a.m_columns ∧
      (∀ c, c < a.m_columns → m.entry 0 c = a.entry row c) := by
  obtain ⟨hr1, hc1, _⟩ := ha
  unfold matrix.row_vector
  rw [if_neg (by omega), mk_matrix_ok 1 a.m_columns default (by omega) hc1, ok_bind]
  obtain ⟨m, hm, h1, h2, h3, h4, _⟩ := foldlM_set_loop1 a.m_columns
    (fun _ => 0) (fun c => c) (fun c _ => a.entry row c)
    ⟨1, a.m_columns, List.replicate (1 * a.m_columns) default⟩
    (by simp) (fun c hc => Nat.one_pos) (fun c hc => hc)
    (fun c c' _ _ _ e2 => e2)
  refine ⟨m, ?_, h1, h2, by simpa using h3, fun c hc => h4 c hc⟩
  rw [← hm]
  apply foldlM_congr_mem
  intro m' c hc
  rw [get_ok a row c hrow (List.mem_range.mp hc), ok_bind]

theorem column_vector_col_oob (a : matrix T) (column : Nat) (h : a.m_columns ≤ column) :
    a.column_vector column = .error .ERR_COL_RANGE := by
  unfold matrix.column_vector
  rw [if_pos (by omega)]

theorem column_vector_spec_le (a : matrix T) (column : Nat) (ha : a.wellFormed)
    (hcol : column < a.m_columns) (hle : a.m_rows ≤ a.m_columns) :
    ∃ m, a.column_vector column = .ok m ∧ m.m_rows = a.m_columns ∧ m.m_columns = 1 ∧
      m.m_data.length = a.m_columns * 1 ∧
      (∀ r, r < a.m_rows → m.entry r 0 = a.entry r column) ∧
      (∀ r, a.m_rows ≤ r → r < a.m_columns → m.entry r 0 = default) := by
  obtain ⟨hr1, hc1, _⟩ := ha
  unfold matrix.column_vector
  rw [if_neg (by omega), mk_matrix_ok a.m_columns 1 default hc1 (by omega), ok_bind]
  obtain ⟨m, hm, h1, h2, h3, h4, h5⟩ := foldlM_set_loop1 a.m_rows
    (fun r => r) (fun _ => 0) (fun r _ => a.entry r column)
    ⟨a.m_columns, 1, List.replicate (a.m_columns * 1) default⟩
    (by simp) (fun r hr => lt_of_lt_of_le hr hle) (fun r hr => Nat.one_pos)
    (fun r r' _ _ e1 _ => e1)
  refine ⟨m, ?_, h1, h2, by simpa using h3, fun r hr => h4 r hr, ?_⟩
  · rw [← hm]
    apply foldlM_congr_mem
    intro m' r hr
    rw [get_ok a r column (List.mem_range.mp hr) hcol, ok_bind]
  · intro r hge hlt
    have hpr := h5 r 0 Nat.one_pos ?_
    · rw [hpr]
      exact entry_replicate a.m_columns 1 r 0 default hlt Nat.one_pos
    · rintro c hc ⟨e1, _⟩
      omega

theorem column_vector_spec_gt (a : matrix T) (column : Nat) (ha : a.wellFormed)
    (hcol : column < a.m_columns) (hgt : a.m_columns < a.m_rows) :
    a.column_vector column = .error .ERR_ROW_RANGE := by
  obtain ⟨hr1, hc1, _⟩ := ha
  unfold matrix.column_vector
  rw [if_neg (by omega), mk_matrix_ok a.m_columns 1 default hc1 (by omega), ok_bind]
  refine foldlM_range_error a.m_rows a.m_columns _ _ _ hgt
    (fun i m => m.m_rows = a.m_columns ∧ m.m_columns = 1 ∧
      m.m_data.length = a.m_columns * 1)
    ⟨rfl, rfl, by simp⟩ ?_ ?_
  · rintro i m hi ⟨e1, e2, e3⟩
    rw [get_ok a i column (by omega) hcol, ok_bind]
    refine ⟨_, set_ok m i 0 _ (by omega) (by omega), e1, e2, ?_⟩
    simpa [List.length_set] using e3
  · rintro m ⟨e1, e2, e3⟩
    rw [get_ok a a.m_columns column (by omega) hcol, ok_bind]
    exact set_row_oob m a.m_columns 0 _ (by omega)

theorem entry_replicate_default (R C r c : Nat) :
    (⟨R, C, List.replicate (R * C) (default : T)⟩ : matrix T).entry r c = default := by
  unfold matrix.entry
  by_cases h : r * C + c < R * C
  · exact getD_replicate _ _ _ _ h
  · exact List.getD_eq_default _ _ (by simpa using Nat.le_of_not_lt h)

theorem mat_mul_spec (a b : matrix T) (ha : a.wellFormed) (hb : b.wellFormed)
    (hcompat : a.m_columns = b.m_rows) :
    ∃ m, a.mat_mul b = .ok m ∧ m.m_rows = a.m_rows ∧ m.m_columns = b.m_columns ∧
      m.m_data.length = a.m_rows * b.m_columns ∧
      (∀ r c, r < a.m_rows → c < b.m_columns →
        m.entry r c = (List.range a.m_columns).foldl
          (fun acc k => acc + a.entry r k * b.entry k c) default) := by
  obtain ⟨hr1, hc1, _⟩ := ha
  obtain ⟨hbr1, hbc1, _⟩ := hb
  unfold matrix.mat_mul
  rw [if_neg (by omega), mk_matrix_ok a.m_rows b.m_columns default hr1 hbc1, ok_bind]
  rw [foldlM_congr_mem _ _ (fun (m : matrix T) (row : Nat) =>
    (List.range b.m_columns).foldlM (fun (m : matrix T) (column : Nat) =>
      (List.range a.m_columns).foldlM (fun (m : matrix T) (element : Nat) =>
        m.set row column
          (m.entry row column + a.entry row element * b.entry element column)) m) m) _
    (by
      intro s row hrow
      apply foldlM_congr_mem
      intro s' column hcolumn
      apply foldlM_congr_mem
      intro m'' element helement
      simp only [get_ok a row element (List.mem_range.mp hrow) (List.mem_range.mp helement),
        get_ok b element column (by rw [← hcompat]; exact List.mem_range.mp helement)
          (List.mem_range.mp hcolumn), ok_bind]
      exact get_set_fuse m'' row column _)]
  have hmid : ∀ (i : Nat), i < a.m_rows → ∀ (m : matrix T),
      (m.m_rows = a.m_rows ∧ m.m_columns = b.m_columns ∧
        m.m_data.length = a.m_rows * b.m_columns ∧
        (∀ r c, r < i → c < b.m_columns → m.entry r c = (List.range a.m_columns).foldl
          (fun acc k => acc + a.entry r k * b.entry k c) default) ∧
        (∀ r c, i ≤ r → r < a.m_rows → c < b.m_columns → m.entry r c = default)) →
      ∃ m', (List.range b.m_columns).foldlM (fun (m : matrix T) (column : Nat) =>
          (List.range a.m_columns).foldlM (fun (m : matrix T) (element : Nat) =>
            m.set i column
              (m.entry i column + a.entry i element * b.entry element column)) m) m
        = .ok m' ∧
        (m'.m_rows = a.m_rows ∧ m'.m_columns = b.m_columns ∧
          m'.m_data.length = a.m_rows * b.m_columns ∧
          (∀ r c, r < i + 1 → c < b.m_columns → m'.entry r c = (List.range a.m_columns).foldl
            (fun acc k => acc + a.entry r k * b.entry k c) default) ∧
          (∀ r c, i + 1 ≤ r → r < a.m_rows → c < b.m_columns → m'.entry r c = default)) := by
    intro i hi m hQ
    obtain ⟨e1, e2, e3, hdone, hfresh⟩ := hQ
    have hstepc : ∀ (j : Nat) (m' : matrix T), j < b.m_columns →
        (m'.m_rows = a.m_rows ∧ m'.m_columns = b.m_columns ∧
          m'.m_data.length = a.m_rows * b.m_columns ∧
          (∀ r c, r < i → c < b.m_columns → m'.entry r c = (List.range a.m_columns).foldl
            (fun acc k => acc + a.entry r k * b.entry k c) default) ∧
          (∀ c, c < j → m'.entry i c = (List.range a.m_columns).foldl
            (fun acc k => acc + a.entry i k * b.entry k c) default) ∧
          (∀ r c, i ≤ r → r < a.m_rows → c < b.m_columns → (r = i → j ≤ c) →
            m'.entry r c = default)) →
        ∃ m'', (List.range a.m_columns).foldlM (fun (m : matrix T) (element : Nat) =>
            m.set i j (m.entry i j + a.entry i element * b.entry element j)) m' = .ok m'' ∧
          (m''.m_rows = a.m_rows ∧ m''.m_columns = b.m_columns ∧
            m''.m_data.length = a.m_rows * b.m_columns ∧
            (∀ r c, r < i → c < b.m_columns → m''.entry r c = (List.range a.m_columns).foldl
              (fun acc k => acc + a.entry r k * b.entry k c) default) ∧
            (∀ c, c < j + 1 → m''.entry i c = (List.range a.m_columns).foldl
              (fun acc k => acc + a.entry i k * b.entry k c) default) ∧
            (∀ r c, i ≤ r → r < a.m_rows → c < b.m_columns → (r = i → j + 1 ≤ c) →
              m''.entry r c = default)) := by
      rintro j m' hj ⟨f1, f2, f3, fdone, frow, ffresh⟩
      obtain ⟨m'', hm'', g1, g2, g3, gacc, gpres⟩ := foldlM_set_acc a.m_columns i j
        (fun el acc => acc + a.entry i el * b.entry el j) m'
        (by rw [f3, f1, f2]) (by rw [f1]; exact hi) (by rw [f2]; exact hj)
      have hstart : m'.entry i j = default :=
        ffresh i j (Nat.le_refl i) hi hj (fun _ => Nat.le_refl j)
      refine ⟨m'', hm'', g1.trans f1, g2.trans f2, g3.trans f3, ?_, ?_, ?_⟩
      · intro r c hr hc
        rw [gpres r c (by rw [f2]; exact hc) (by rintro ⟨hri, _⟩; omega)]
        exact fdone r c hr hc
      · intro c hc
        rcases Nat.lt_succ_iff_lt_or_eq.mp hc with hlt | heq
        · rw [gpres i c (by rw [f2]; omega) (by rintro ⟨_, hcj⟩; omega)]
          exact frow c hlt
        · subst heq
          rw [gacc, hstart]
      · intro r c hge hlt hcb hcase
        rw [gpres r c (by rw [f2]; exact hcb) ?_]
        · exact ffresh r c hge hlt hcb (fun he => Nat.le_of_succ_le (hcase he))
        · rintro ⟨hri, hcj⟩
          have := hcase hri
          omega
    obtain ⟨m', hm', hQ'⟩ := foldlM_range_invariant b.m_columns _ _ m
      ⟨e1, e2, e3, hdone, fun c hc => absurd hc (Nat.not_lt_zero c),
        fun r c hge hlt hcb _ => hfresh r c hge hlt hcb⟩ hstepc
    refine ⟨m', hm', hQ'.1, hQ'.2.1, hQ'.2.2.1, ?_, ?_⟩
    · intro r c hr hc
      rcases Nat.lt_succ_iff_lt_or_eq.mp hr with hlt | heq
      · exact hQ'.2.2.2.1 r c hlt hc
      · subst heq
        exact hQ'.2.2.2.2.1 c hc
    · intro r c hge hlt hcb
      exact hQ'.2.2.2.2.2 r c (by omega) hlt hcb (fun he => by omega)
  obtain ⟨m, hm, hQ⟩ := foldlM_range_invariant a.m_rows _ _
    (⟨a.m_rows, b.m_columns, List.replicate (a.m_rows * b.m_columns) default⟩ : matrix T)
    ⟨rfl, rfl, by simp, fun r c hr => absurd hr (Nat.not_lt_zero r),
      fun r c _ hlt hcb => entry_replicate a.m_rows b.m_columns r c default hlt hcb⟩
    (fun i m hi hQ => hmid i hi m hQ)
  exact ⟨m, hm, hQ.1, hQ.2.1, hQ.2.2.1, fun r c hr hc => hQ.2.2.2.1 r c hr hc⟩

theorem minor_row_kept (a : matrix T) (at_row at_column : Nat) (r : Nat)
    (hr : r < a.m_rows) (hne : r ≠ at_row) (hcat : at_column < a.m_columns)
    (P : List T) (k : Nat) (hk : a.m_columns - 1 ≤ k) :
    (List.range a.m_columns).foldlM (fun (st : List T × Nat) (column : Nat) =>
        if r = at_row then pure st
        else if column = at_column then pure st
        else do
          let v ← a.get r column
          pure (st.1.set st.2 v, st.2 + 1))
      (P ++ List.replicate k default, P.length)
    = .ok (P ++ ((List.range a.m_columns).filter (fun c => c ≠ at_column)).map
        (fun c => a.entry r c) ++ List.replicate (k - (a.m_columns - 1)) default,
        P.length + (a.m_columns - 1)) := by
  have hstep : ∀ (j : Nat) (st : List T × Nat), j < a.m_columns →
      (st.1 = P ++ ((List.range j).filter (fun c => c ≠ at_column)).map
          (fun c => a.entry r c) ++ List.replicate
          (k - ((List.range j).filter (fun c => c ≠ at_column)).length) default ∧
        st.2 = P.length + ((List.range j).filter (fun c => c ≠ at_column)).length) →
      ∃ st', (if r = at_row then pure st
          else if j = at_column then pure st
          else do
            let v ← a.get r j
            pure (st.1.set st.2 v, st.2 + 1)) = Except.ok st' ∧
        (st'.1 = P ++ ((List.range (j + 1)).filter (fun c => c ≠ at_column)).map
            (fun c => a.entry r c) ++ List.replicate
            (k - ((List.range (j + 1)).filter (fun c => c ≠ at_column)).length) default ∧
          st'.2 = P.length + ((List.range (j + 1)).filter (fun c => c ≠ at_column)).length) := by
    rintro j ⟨s1, s2⟩ hj ⟨h1, h2⟩
    simp only at h1 h2
    subst h1
    subst h2
    rw [if_neg hne]
    by_cases hcj : j = at_column
    · rw [if_pos hcj]
      have hfil : (List.range (j + 1)).filter (fun c => c ≠ at_column) =
          (List.range j).filter (fun c => c ≠ at_column) := by
        rw [List.range_succ, List.filter_append]
        simp [hcj]
      exact ⟨_, rfl, by rw [hfil], by rw [hfil]⟩
    · rw [if_neg hcj, get_ok a r j hr hj, ok_bind]
      have hfil : (List.range (j + 1)).filter (fun c => c ≠ at_column) =
          (List.range j).filter (fun c => c ≠ at_column) ++ [j] := by
        rw [List.range_succ, List.filter_append]
        simp [hcj]
      have hkc : ((List.range j).filter (fun c => c ≠ at_column)).length =
          if at_column < j then j - 1 else j := length_filter_ne_range j at_column
      have hkcle : ((List.range j).filter (fun c => c ≠ at_column)).length ≤
          a.m_columns - 2 := by
        rw [hkc]
        split_ifs <;> omega
      have hsplit : List.replicate
          (k - ((List.range j).filter (fun c => c ≠ at_column)).length) (default : T) =
          default :: List.replicate
            (k - ((List.range j).filter (fun c => c ≠ at_column)).length - 1) default := by
        have he : k - ((List.range j).filter (fun c => c ≠ at_column)).length =
            (k - ((List.range j).filter (fun c => c ≠ at_column)).length - 1) + 1 := by
          omega
        conv_lhs => rw [he]
        rw [List.replicate_succ]
      have hplen : P.length + ((List.range j).filter (fun c => c ≠ at_column)).length =
          (P ++ ((List.range j).filter (fun c => c ≠ at_column)).map
            (fun c => a.entry r c)).length := by
        simp
      refine ⟨_, rfl, ?_, ?_⟩
      · simp only [hsplit, hplen, ← List.append_assoc, set_append_length]
        rw [hfil]
        have he2 : k - ((List.range j).filter (fun c => c ≠ at_column)).length - 1 =
            k - (((List.range j).filter (fun c => c ≠ at_column)).length + 1) := by omega
        simp [he2]
        omega
      · rw [hfil]
        simp only [List.length_append, List.length_cons, List.length_nil]
        omega
  obtain ⟨⟨s1, s2⟩, hst, hQ1, hQ2⟩ := foldlM_range_invariant a.m_columns _
    (fun j st => st.1 = P ++ ((List.range j).filter (fun c => c ≠ at_column)).map
        (fun c => a.entry r c) ++ List.replicate
        (k - ((List.range j).filter (fun c => c ≠ at_column)).length) default ∧
      st.2 = P.length + ((List.range j).filter (fun c => c ≠ at_column)).length)
    (P ++ List.replicate k default, P.length) ⟨by simp, by simp⟩ hstep
  simp only at hQ1 hQ2
  subst hQ1
  subst hQ2
  have hC : ((List.range a.m_columns).filter (fun c => c ≠ at_column)).length =
      a.m_columns - 1 := by
    rw [length_filter_ne_range, if_pos hcat]
  rw [hC] at hst
  exact hst

theorem minor_spec (a : matrix T) (at_row at_column : Nat)
    (h2r : 2 ≤ a.m_rows) (h2c : 2 ≤ a.m_columns)
    (hat_r : at_row < a.m_rows) (hat_c : at_column < a.m_columns) :
    ∃ m, a.minor at_row at_column = .ok m ∧ m.m_rows = a.m_rows - 1 ∧
      m.m_columns = a.m_columns - 1 ∧
      m.m_data = minor_kept_list a at_row at_column a.m_rows ∧
      m.m_data.length = (a.m_rows - 1) * (a.m_columns - 1) := by
  unfold matrix.minor
  rw [mk_matrix_ok (a.m_rows - 1) (a.m_columns - 1) default (by omega) (by omega), ok_bind]
  have hstepR : ∀ (i : Nat) (st : List T × Nat), i < a.m_rows →
      (st.1 = minor_kept_list a at_row at_column i ++ List.replicate
          ((a.m_rows - 1) * (a.m_columns - 1) -
            (minor_kept_list a at_row at_column i).length) default ∧
        st.2 = (minor_kept_list a at_row at_column i).length ∧
        (minor_kept_list a at_row at_column i).length =
          ((List.range i).filter (fun r => r ≠ at_row)).length * (a.m_columns - 1)) →
      ∃ st', (List.range a.m_columns).foldlM (fun (st : List T × Nat) (column : Nat) =>
          if i = at_row then pure st
          else if column = at_column then pure st
          else do
            let v ← a.get i column
            pure (st.1.set st.2 v, st.2 + 1)) st = .ok st' ∧
        (st'.1 = minor_kept_list a at_row at_column (i + 1) ++ List.replicate
            ((a.m_rows - 1) * (a.m_columns - 1) -
              (minor_kept_list a at_row at_column (i + 1)).length) default ∧
          st'.2 = (minor_kept_list a at_row at_column (i + 1)).length ∧
          (minor_kept_list a at_row at_column (i + 1)).length =
            ((List.range (i + 1)).filter (fun r => r ≠ at_row)).length *
              (a.m_columns - 1)) := by
    rintro i ⟨s1, s2⟩ hi ⟨h1, h2, h3⟩
    simp only at h1 h2 h3
    subst h1
    subst h2
    by_cases hir : i = at_row
    · have hfil : (List.range (i + 1)).filter (fun r => r ≠ at_row) =
          (List.range i).filter (fun r => r ≠ at_row) := by
        rw [List.range_succ, List.filter_append]
        simp [hir]
      have hLeq : minor_kept_list a at_row at_column (i + 1) =
          minor_kept_list a at_row at_column i := by
        unfold minor_kept_list
        rw [hfil]
      have hskip : (List.range a.m_columns).foldlM (fun (st : List T × Nat) (column : Nat) =>
          if i = at_row then pure st
          else if column = at_column then pure st
          else do
            let v ← a.get i column
            pure (st.1.set st.2 v, st.2 + 1))
          (minor_kept_list a at_row at_column i ++ List.replicate
            ((a.m_rows - 1) * (a.m_columns - 1) -
              (minor_kept_list a at_row at_column i).length) default,
            (minor_kept_list a at_row at_column i).length) = .ok
          (minor_kept_list a at_row at_column i ++ List.replicate
            ((a.m_rows - 1) * (a.m_columns - 1) -
              (minor_kept_list a at_row at_column i).length) default,
            (minor_kept_list a at_row at_column i).length) := by
        rw [foldlM_congr_mem _ _ (fun (st : List T × Nat) (_ : Nat) => pure st) _
          (fun s x _ => if_pos hir)]
        exact foldlM_pure_id _ _
      refine ⟨_, hskip, ?_, ?_, ?_⟩
      · rw [hLeq]
      · rw [hLeq]
      · rw [hLeq, hfil]
        exact h3
    · have hfil2 : (List.range (i + 1)).filter (fun r => r ≠ at_row) =
          (List.range i).filter (fun r => r ≠ at_row) ++ [i] := by
        rw [List.range_succ, List.filter_append]
        simp [hir]
      have hLpre : minor_kept_list a at_row at_column (i + 1) =
          minor_kept_list a at_row at_column i ++
            ((List.range a.m_columns).filter (fun c => c ≠ at_column)).map
              (fun c => a.entry i c) := by
        unfold minor_kept_list
        rw [hfil2, List.flatMap_append]
        simp
      have hrowlen : (((List.range a.m_columns).filter (fun c => c ≠ at_column)).map
          (fun c => a.entry i c)).length = a.m_columns - 1 := by
        rw [List.length_map, length_filter_ne_range, if_pos hat_c]
      have hki : ((List.range i).filter (fun r => r ≠ at_row)).length =
          if at_row < i then i - 1 else i := length_filter_ne_range i at_row
      have hkile : ((List.range i).filter (fun r => r ≠ at_row)).length ≤ a.m_rows - 2 := by
        rw [hki]
        split_ifs <;> omega
      have hmul : (((List.range i).filter (fun r => r ≠ at_row)).length + 1) *
          (a.m_columns - 1) ≤ (a.m_rows - 1) * (a.m_columns - 1) :=
        Nat.mul_le_mul_right _ (by omega)
      have hexp : (((List.range i).filter (fun r => r ≠ at_row)).length + 1) *
          (a.m_columns - 1) = ((List.range i).filter (fun r => r ≠ at_row)).length *
            (a.m_columns - 1) + (a.m_columns - 1) := Nat.succ_mul _ _
      have hk : a.m_columns - 1 ≤ (a.m_rows - 1) * (a.m_columns - 1) -
          (minor_kept_list a at_row at_column i).length := by
        omega
      refine ⟨_, minor_row_kept a at_row at_column i hi hir hat_c
        (minor_kept_list a at_row at_column i)
        ((a.m_rows - 1) * (a.m_columns - 1) -
          (minor_kept_list a at_row at_column i).length) hk, ?_, ?_, ?_⟩
      · dsimp only
        rw [hLpre]
        have hcnt : (a.m_rows - 1) * (a.m_columns - 1) -
            (minor_kept_list a at_row at_column i).length - (a.m_columns - 1) =
            (a.m_rows - 1) * (a.m_columns - 1) -
              (minor_kept_list a at_row at_column i ++
                ((List.range a.m_columns).filter (fun c => c ≠ at_column)).map
                  (fun c => a.entry i c)).length := by
          rw [List.length_append, hrowlen]
          omega
        rw [hcnt]
      · dsimp only
        rw [hLpre, List.length_append, hrowlen]
      · rw [hLpre, List.length_append, hrowlen, hfil2, List.length_append]
        simp only [List.length_cons, List.length_nil]
        rw [Nat.succ_mul]
        omega
  obtain ⟨⟨s1, s2⟩, hst, hQ1, hQ2, hQ3⟩ := foldlM_range_invariant a.m_rows _
    (fun i st => st.1 = minor_kept_list a at_row at_column i ++ List.replicate
        ((a.m_rows - 1) * (a.m_columns - 1) -
          (minor_kept_list a at_row at_column i).length) default ∧
      st.2 = (minor_kept_list a at_row at_column i).length ∧
      (minor_kept_list a at_row at_column i).length =
        ((List.range i).filter (fun r => r ≠ at_row)).length * (a.m_columns - 1))
    ((⟨a.m_rows - 1, a.m_columns - 1,
      List.replicate ((a.m_rows - 1) * (a.m_columns - 1)) default⟩ : matrix T).m_data, 0)
    ⟨by simp [minor_kept_list], by simp [minor_kept_list], by simp [minor_kept_list]⟩
    hstepR
  simp only at hQ1 hQ2 hQ3
  have hkR : ((List.range a.m_rows).filter (fun r => r ≠ at_row)).length =
      a.m_rows - 1 := by
    rw [length_filter_ne_range, if_pos hat_r]
  have htot : (minor_kept_list a at_row at_column a.m_rows).length =
      (a.m_rows - 1) * (a.m_columns - 1) := by
    rw [hQ3, hkR]
  have hs1 : s1 = minor_kept_list a at_row at_column a.m_rows := by
    rw [hQ1, htot]
    simp
  refine ⟨⟨a.m_rows - 1, a.m_columns - 1, s1⟩, ?_, rfl, rfl, hs1, ?_⟩
  · rw [hst, ok_bind]
    rfl
  · rw [hs1]
    exact htot

theorem minor_ok_shape (a : matrix T) (at_row at_column : Nat) (m : matrix T)
    (h : a.minor at_row at_column = .ok m) :
    m.m_rows = a.m_rows - 1 ∧ m.m_columns = a.m_columns - 1 ∧
      m.m_data.length = (a.m_rows - 1) * (a.m_columns - 1) ∧
      1 ≤ a.m_rows - 1 ∧ 1 ≤ a.m_columns - 1 := by
  unfold matrix.minor at h
  by_cases hc : a.m_rows - 1 < 1 ∨ a.m_columns - 1 < 1
  · rw [show mk_matrix (a.m_rows - 1) (a.m_columns - 1) (default : T) =
      .error .ERR_INVALID_SIZE from by unfold mk_matrix; rw [if_pos hc],
      error_bind] at h
    cases h
  · rw [mk_matrix_ok _ _ _ (by omega) (by omega), ok_bind] at h
    have hstep : ∀ (i : Nat) (st : List T × Nat), i < a.m_rows →
        st.1.length = (a.m_rows - 1) * (a.m_columns - 1) →
        ∃ st', (List.range a.m_columns).foldlM (fun (st : List T × Nat) (column : Nat) =>
            if i = at_row then pure st
            else if column = at_column then pure st
            else do
              let v ← a.get i column
              pure (st.1.set st.2 v, st.2 + 1)) st = .ok st' ∧
          st'.1.length = (a.m_rows - 1) * (a.m_columns - 1) := by
      intro i st hi hlen
      exact foldlM_range_invariant a.m_columns
        (fun (st : List T × Nat) (column : Nat) =>
          if i = at_row then pure st
          else if column = at_column then pure st
          else do
            let v ← a.get i column
            pure (st.1.set st.2 v, st.2 + 1))
        (fun _ st => st.1.length = (a.m_rows - 1) * (a.m_columns - 1)) st hlen
        (by
          intro j st' hj hlen'
          dsimp only
          by_cases hir : i = at_row
          · rw [if_pos hir]
            exact ⟨st', rfl, hlen'⟩
          · rw [if_neg hir]
            by_cases hcj : j = at_column
            · rw [if_pos hcj]
              exact ⟨st', rfl, hlen'⟩
            · rw [if_neg hcj, get_ok a i j hi hj, ok_bind]
              exact ⟨_, rfl, by simpa [List.length_set] using hlen'⟩)
    obtain ⟨⟨s1, s2⟩, hst, hQ⟩ := foldlM_range_invariant a.m_rows _
      (fun _ st => st.1.length = (a.m_rows - 1) * (a.m_columns - 1))
      ((⟨a.m_rows - 1, a.m_columns - 1,
        List.replicate ((a.m_rows - 1) * (a.m_columns - 1)) default⟩ : matrix T).m_data, 0)
      (by simp) hstep
    rw [hst, ok_bind] at h
    have hm : m = ⟨a.m_rows - 1, a.m_columns - 1, s1⟩ := by
      have := h.symm
      exact (Except.ok.injEq .. ▸ this)
    subst hm
    exact ⟨rfl, rfl, hQ, by omega, by omega⟩

theorem detGo_ok : ∀ (n : Nat) (a : matrix T), a.wellFormed → a.m_rows = a.m_columns →
    a.m_rows ≤ n → ∃ v, matrix.detGo n a = .ok v := by
  intro n
  induction n with
  | zero =>
    intro a ha _ hle
    obtain ⟨hr1, _, _⟩ := ha
    exact absurd hle (by omega)
  | succ n ih =>
    intro a ha hsq hle
    obtain ⟨hr1, hc1, hl⟩ := ha
    unfold matrix.detGo
    rw [if_neg (by omega)]
    by_cases h1 : a.m_rows = 1
    · rw [if_pos h1, get_ok a 0 0 (by omega) (by omega)]
      exact ⟨_, rfl⟩
    · rw [if_neg h1]
      by_cases h2 : a.m_rows = 2
      · rw [if_pos h2, get_ok a 0 0 (by omega) (by omega), ok_bind,
          get_ok a 1 1 (by omega) (by omega), ok_bind,
          get_ok a 1 0 (by omega) (by omega), ok_bind,
          get_ok a 0 1 (by omega) (by omega), ok_bind]
        exact ⟨_, rfl⟩
      · rw [if_neg h2]
        have hstep : ∀ (i : Nat) (s : T), i < a.m_rows → True →
            ∃ s', (do
              let sub_matrix ← a.minor i 0
              let d ← matrix.detGo n sub_matrix
              let x ← a.get i 0
              pure (if i % 2 = 0 then s + x * d else s - x * d)) = Except.ok s' ∧ True := by
          intro i s hi _
          obtain ⟨sub, hsub, g1, g2, g3, g4⟩ := minor_spec a i 0 (by omega) (by omega)
            hi (by omega)
          rw [hsub, ok_bind]
          obtain ⟨d, hd⟩ := ih sub ⟨by omega, by omega, by rw [g4, g1, g2]⟩ (by omega)
            (by omega)
          rw [hd, ok_bind, get_ok a i 0 hi (by omega), ok_bind]
          exact ⟨_, rfl, trivial⟩
        obtain ⟨v, hv, _⟩ := foldlM_range_invariant a.m_rows _
          (fun _ _ => True) default trivial hstep
        exact ⟨v, hv⟩

theorem determinant_not_square (a : matrix T) (h : a.m_rows ≠ a.m_columns) :
    a.determinant = .error .ERR_NOT_SQUARE := by
  unfold matrix.determinant matrix.detGo
  rw [if_pos h]

theorem determinant_1x1 (a : matrix T) (h1 : a.m_rows = 1) (hsq : a.m_rows = a.m_columns) :
    a.determinant = .ok (a.entry 0 0) := by
  unfold matrix.determinant matrix.detGo
  rw [if_neg (by omega), if_pos h1, get_ok a 0 0 (by omega) (by omega)]

theorem determinant_2x2 (a : matrix T) (h2 : a.m_rows = 2) (hsq : a.m_rows = a.m_columns) :
    a.determinant = .ok (a.entry 0 0 * a.entry 1 1 - a.entry 1 0 * a.entry 0 1) := by
  unfold matrix.determinant matrix.detGo
  rw [if_neg (by omega), if_neg (by omega), if_pos h2,
    get_ok a 0 0 (by omega) (by omega), ok_bind,
    get_ok a 1 1 (by omega) (by omega), ok_bind,
    get_ok a 1 0 (by omega) (by omega), ok_bind,
    get_ok a 0 1 (by omega) (by omega), ok_bind]
  rfl

theorem determinant_expansion (a : matrix T) (hsq : a.m_rows = a.m_columns)
    (h3 : 2 < a.m_rows) :
    a.determinant = (List.range a.m_rows).foldlM (fun (result : T) (row : Nat) => do
      let sub_matrix ← a.minor row 0
      let d ← sub_matrix.determinant
      let x ← a.get row 0
      pure (if row % 2 = 0 then result + x * d else result - x * d)) default := by
  obtain ⟨n, hn⟩ : ∃ n, a.m_rows = n + 1 := ⟨a.m_rows - 1, by omega⟩
  have key : matrix.detGo a.m_rows a =
      (List.range a.m_rows).foldlM (fun (result : T) (row : Nat) => do
        let sub_matrix ← a.minor row 0
        let d ← matrix.detGo n sub_matrix
        let x ← a.get row 0
        pure (if row % 2 = 0 then result + x * d else result - x * d)) default := by
    conv_lhs => rw [hn, matrix.detGo]
    rw [if_neg (by omega), if_neg (by omega), if_neg (by omega)]
  unfold matrix.determinant
  rw [key]
  apply foldlM_congr_mem
  intro s row hrow
  apply bind_congr_ok
  intro sub hsub
  have hshape := (minor_ok_shape a row 0 sub hsub).1
  have hsubrows : sub.m_rows = n := by omega
  rw [hsubrows]

/-! ### The claims -/

/-- Claim C1 (code bug): the claim says `operator-()` returns a matrix whose
every element is the negation of the corresponding element of `a`.  The code
instead executes `result(row, column) = -result(row, column)` on the freshly
default-filled `result`, never reading `*this`: on the 1x1 integer matrix
`[[5]]` it returns `[[0]]`, not `[[-5]]`. -/
theorem C1_unary_negation_bug :
    matrix.neg (⟨1, 1, [(5 : ℤ)]⟩ : matrix ℤ) = .ok ⟨1, 1, [0]⟩ ∧
    (⟨1, 1, [(0 : ℤ)]⟩ : matrix ℤ).entry 0 0 ≠
      -((⟨1, 1, [(5 : ℤ)]⟩ : matrix ℤ).entry 0 0) := by
  constructor
  · decide
  · decide

/-- Claim C2: `determinant()` fails with `NotSquare` exactly when
`rows ≠ columns` (and succeeds on every well-formed square matrix); a `1x1`
matrix returns its sole element; a `2x2` matrix returns
`a(0,0)*a(1,1) - a(1,0)*a(0,1)`; for `n > 2` it satisfies the cofactor
expansion along column 0, accumulating `a(row,0) * determinant(minor(a,row,0))`
with alternating sign into a total starting at `T()`; and on the integer
matrix `[[1,0,2],[-1,5,0],[0,3,1]]` it returns `-1`. -/
theorem C2_determinant_cofactor :
    (∀ a : matrix T, a.wellFormed →
      (a.determinant = .error .ERR_NOT_SQUARE ↔ a.m_rows ≠ a.m_columns)) ∧
    (∀ a : matrix T, a.wellFormed → a.m_rows = a.m_columns →
      ∃ v, a.determinant = .ok v) ∧
    (∀ a : matrix T, a.wellFormed → a.m_rows = 1 → a.m_columns = 1 →
      a.determinant = .ok (a.entry 0 0)) ∧
    (∀ a : matrix T, a.wellFormed → a.m_rows = 2 → a.m_columns = 2 →
      a.determinant = .ok (a.entry 0 0 * a.entry 1 1 - a.entry 1 0 * a.entry 0 1)) ∧
    (∀ a : matrix T, a.m_rows = a.m_columns → 2 < a.m_rows →
      a.determinant = (List.range a.m_rows).foldlM (fun (result : T) (row : Nat) => do
        let sub_matrix ← a.minor row 0
        let d ← sub_matrix.determinant
        let x ← a.get row 0
        pure (if row % 2 = 0 then result + x * d else result - x * d)) default) ∧
    ((⟨3, 3, [1, 0, 2, -1, 5, 0, 0, 3, 1]⟩ : matrix ℤ).determinant = .ok (-1)) := by
  refine ⟨?_, ?_, ?_, ?_, ?_, by decide⟩
  · intro a ha
    constructor
    · intro herr
      by_contra hsq
      have hsq2 : a.m_rows = a.m_columns := by omega
      obtain ⟨v, hv⟩ := detGo_ok a.m_rows a ha hsq2 (Nat.le_refl _)
      unfold matrix.determinant at herr
      rw [hv] at herr
      cases herr
    · exact determinant_not_square a
  · intro a ha hsq
    exact detGo_ok a.m_rows a ha hsq (Nat.le_refl _)
  · intro a _ h1 hc
    exact determinant_1x1 a h1 (by omega)
  · intro a _ h2 hc
    exact determinant_2x2 a h2 (by omega)
  · intro a hsq h3
    exact determinant_expansion a hsq h3

/-- Witness for C2: applying the 2x2 case to `[[1,2],[3,4]]` over `ℤ` gives
`1*4 - 3*2 = -2`. -/
theorem C2_determinant_cofactor_witness :
    (⟨2, 2, [(1 : ℤ), 2, 3, 4]⟩ : matrix ℤ).determinant = .ok (-2) := by
  rw [(C2_determinant_cofactor (T := ℤ)).2.2.2.1 ⟨2, 2, [1, 2, 3, 4]⟩
    (by decide) rfl rfl]
  decide

/-- Claim C3: the scalar "multiplication" `operator*(T)` returns a fresh
matrix of the same shape whose every element is `T() + scalar` — a constant
fill independent of the elements of `a` — and it never fails on a
well-formed matrix (`a` itself, being pure data here, is unchanged). -/
theorem C3_scalar_mul_constant_fill :
    ∀ (a : matrix T) (s : T), a.wellFormed →
      ∃ m, a.scalar_mul s = .ok m ∧ m.m_rows = a.m_rows ∧ m.m_columns = a.m_columns ∧
        m.m_data.length = a.m_rows * a.m_columns ∧
        (∀ r c, r < a.m_rows → c < a.m_columns → m.entry r c = (default : T) + s) :=
  fun a s ha => scalar_mul_spec a s ha

/-- Witness for C3 at `[[1,2],[3,4]] * 7` over `ℤ`: every entry is `0 + 7`. -/
theorem C3_scalar_mul_constant_fill_witness :
    ∃ m, (⟨2, 2, [(1 : ℤ), 2, 3, 4]⟩ : matrix ℤ).scalar_mul 7 = .ok m ∧
      m.m_rows = 2 ∧ m.m_columns = 2 ∧ m.m_data.length = 2 * 2 ∧
      (∀ r c, r < 2 → c < 2 → m.entry r c = (default : ℤ) + 7) :=
  C3_scalar_mul_constant_fill ⟨2, 2, [1, 2, 3, 4]⟩ 7 (by decide)

/-- Counterexample to C4 as stated: on the well-formed `2x1` integer matrix
`[[1],[2]]` the in-range call `column_vector(0)` does not return a
`(columns, 1)` result with `rows` elements copied — it fails with
`RowOutOfRange`, because the loop writes `result(row, 0)` into a result with
only `columns = 1` rows. -/
theorem C4_column_vector_counterexample :
    (0 : Nat) < (⟨2, 1, [(1 : ℤ), 2]⟩ : matrix ℤ).m_columns ∧
    (⟨2, 1, [(1 : ℤ), 2]⟩ : matrix ℤ).column_vector 0 = .error .ERR_ROW_RANGE := by
  constructor
  · decide
  · decide

/-- Claim C4 (amended): `column_vector(c)` fails with `ColumnOutOfRange`
exactly when `c ≥ columns`; when `c < columns` **and `rows ≤ columns`** it
returns a result of shape `(columns, 1)` with `a(row, c)` at `(row, 0)` for
each `row < rows`; when `c < columns` but `rows > columns` it instead fails
with `RowOutOfRange` (the amendment the counterexample forces). -/
theorem C4_column_vector_amended :
    (∀ (a : matrix T) (c : Nat), a.wellFormed →
      (a.column_vector c = .error .ERR_COL_RANGE ↔ a.m_columns ≤ c)) ∧
    (∀ (a : matrix T) (c : Nat), a.wellFormed → c < a.m_columns →
      a.m_rows ≤ a.m_columns →
      ∃ m, a.column_vector c = .ok m ∧ m.m_rows = a.m_columns ∧ m.m_columns = 1 ∧
        (∀ r, r < a.m_rows → m.entry r 0 = a.entry r c)) ∧
    (∀ (a : matrix T) (c : Nat), a.wellFormed → c < a.m_columns →
      a.m_columns < a.m_rows →
      a.column_vector c = .error .ERR_ROW_RANGE) := by
  refine ⟨?_, ?_, ?_⟩
  · intro a c ha
    constructor
    · intro herr
      by_contra hcol
      push_neg at hcol
      by_cases hle : a.m_rows ≤ a.m_columns
      · obtain ⟨m, hm, _⟩ := column_vector_spec_le a c ha hcol hle
        rw [hm] at herr
        cases herr
      · rw [column_vector_spec_gt a c ha hcol (by omega)] at herr
        cases herr
    · exact column_vector_col_oob a c
  · intro a c ha hcol hle
    obtain ⟨m, hm, h1, h2, h3, h4, h5⟩ := column_vector_spec_le a c ha hcol hle
    exact ⟨m, hm, h1, h2, h4⟩
  · intro a c ha hcol hgt
    exact column_vector_spec_gt a c ha hcol hgt

/-- Witness for C4 (amended) on the `1x2` matrix `[[1,2]]` with `c = 1`:
`rows = 1 ≤ 2 = columns`, and the result is a `(2, 1)` matrix holding
`a(0,1)` at position `(0,0)`. -/
theorem C4_column_vector_amended_witness :
    ∃ m, (⟨1, 2, [(1 : ℤ), 2]⟩ : matrix ℤ).column_vector 1 = .ok m ∧
      m.m_rows = 2 ∧ m.m_columns = 1 ∧
      (∀ r, r < 1 → m.entry r 0 = (⟨1, 2, [(1 : ℤ), 2]⟩ : matrix ℤ).entry r 1) :=
  (C4_column_vector_amended (T := ℤ)).2.1 ⟨1, 2, [1, 2]⟩ 1 (by decide) (by decide)
    (by decide)

/-- Claim C5: when `rows > columns`, `column_vector` on any in-range column
fails with `RowOutOfRange` (raised by the element indexing of the
`(columns, 1)` result); when `rows < columns` it succeeds and the trailing
`columns - rows` entries of the result equal the default value `T()`. -/
theorem C5_column_vector_shape_mismatch :
    (∀ (a : matrix T) (c : Nat), a.wellFormed → a.m_columns < a.m_rows →
      c < a.m_columns → a.column_vector c = .error .ERR_ROW_RANGE) ∧
    (∀ (a : matrix T) (c : Nat), a.wellFormed → a.m_rows < a.m_columns →
      c < a.m_columns →
      ∃ m, a.column_vector c = .ok m ∧ m.m_rows = a.m_columns ∧ m.m_columns = 1 ∧
        (∀ r, a.m_rows ≤ r → r < a.m_columns → m.entry r 0 = (default : T))) := by
  constructor
  · intro a c ha hgt hcol
    exact column_vector_spec_gt a c ha hcol hgt
  · intro a c ha hlt hcol
    obtain ⟨m, hm, h1, h2, h3, h4, h5⟩ :=
      column_vector_spec_le a c ha hcol (Nat.le_of_lt hlt)
    exact ⟨m, hm, h1, h2, h5⟩

/-- Witness for C5: the `2x1` matrix `[[1],[2]]` fails with `RowOutOfRange`
at `c = 0`, and the `1x2` matrix `[[1,2]]` at `c = 0` yields a `(2,1)` result
whose trailing entry is `0`. -/
theorem C5_column_vector_shape_mismatch_witness :
    (⟨2, 1, [(1 : ℤ), 2]⟩ : matrix ℤ).column_vector 0 = .error .ERR_ROW_RANGE ∧
    ∃ m, (⟨1, 2, [(1 : ℤ), 2]⟩ : matrix ℤ).column_vector 0 = .ok m ∧
      m.m_rows = 2 ∧ m.m_columns = 1 ∧
      (∀ r, 1 ≤ r → r < 2 → m.entry r 0 = (default : ℤ)) :=
  ⟨(C5_column_vector_shape_mismatch (T := ℤ)).1 ⟨2, 1, [1, 2]⟩ 0 (by decide)
      (by decide) (by decide),
    (C5_column_vector_shape_mismatch (T := ℤ)).2 ⟨1, 2, [1, 2]⟩ 0 (by decide)
      (by decide) (by decide)⟩

/-- Claim C6: for compatible shapes (`a.columns = b.rows`) the matrix product
returns a `(a.rows, b.columns)` matrix whose `(row, col)` element is the sum
over `k` of `a(row,k) * b(k,col)`, accumulated by a left fold in increasing
`k` order starting from the default value `T()`. -/
theorem C6_matrix_product :
    ∀ a b : matrix T, a.wellFormed → b.wellFormed → a.m_columns = b.m_rows →
      ∃ m, a.mat_mul b = .ok m ∧ m.m_rows = a.m_rows ∧ m.m_columns = b.m_columns ∧
        (∀ r c, r < a.m_rows → c < b.m_columns →
          m.entry r c = (List.range a.m_columns).foldl
            (fun acc k => acc + a.entry r k * b.entry k c) default) := by
  intro a b ha hb hcompat
  obtain ⟨m, hm, h1, h2, h3, h4⟩ := mat_mul_spec a b ha hb hcompat
  exact ⟨m, hm, h1, h2, h4⟩

/-- Witness for C6 on `[[1,2],[3,4]] * [[5,6],[7,8]]` over `ℤ`. -/
theorem C6_matrix_product_witness :
    ∃ m, (⟨2, 2, [(1 : ℤ), 2, 3, 4]⟩ : matrix ℤ).mat_mul ⟨2, 2, [5, 6, 7, 8]⟩ = .ok m ∧
      m.m_rows = 2 ∧ m.m_columns = 2 ∧
      (∀ r c, r < 2 → c < 2 →
        m.entry r c = (List.range 2).foldl
          (fun acc k => acc + (⟨2, 2, [(1 : ℤ), 2, 3, 4]⟩ : matrix ℤ).entry r k *
            (⟨2, 2, [(5 : ℤ), 6, 7, 8]⟩ : matrix ℤ).entry k c) default) :=
  C6_matrix_product ⟨2, 2, [1, 2, 3, 4]⟩ ⟨2, 2, [5, 6, 7, 8]⟩ (by decide) (by decide)
    rfl

/-- Claim C7: for `rows, columns ≥ 2` and in-range `(at_row, at_column)`,
`minor` returns a `(rows-1, columns-1)` matrix whose backing data is exactly
the row-major list of the elements of `a` outside row `at_row` and column
`at_column` (so it preserves their relative row-major order and contains no
element of that row or column). -/
theorem C7_minor_contents :
    ∀ (a : matrix T) (i j : Nat), a.wellFormed → 2 ≤ a.m_rows → 2 ≤ a.m_columns →
      i < a.m_rows → j < a.m_columns →
      ∃ m, a.minor i j = .ok m ∧ m.m_rows = a.m_rows - 1 ∧
        m.m_columns = a.m_columns - 1 ∧
        m.m_data = ((List.range a.m_rows).filter (fun r => r ≠ i)).flatMap
          (fun r => ((List.range a.m_columns).filter (fun c => c ≠ j)).map
            (fun c => a.entry r c)) := by
  intro a i j _ h2r h2c hi hj
  obtain ⟨m, hm, h1, h2, h3, _⟩ := minor_spec a i j h2r h2c hi hj
  exact ⟨m, hm, h1, h2, h3⟩

/-- Witness for C7: the minor of `[[1,0,2],[-1,5,0],[0,3,1]]` at `(1, 0)`. -/
theorem C7_minor_contents_witness :
    ∃ m, (⟨3, 3, [(1 : ℤ), 0, 2, -1, 5, 0, 0, 3, 1]⟩ : matrix ℤ).minor 1 0 = .ok m ∧
      m.m_rows = 2 ∧ m.m_columns = 2 ∧
      m.m_data = ((List.range 3).filter (fun r => r ≠ 1)).flatMap
        (fun r => ((List.range 3).filter (fun c => c ≠ 0)).map
          (fun c => (⟨3, 3, [(1 : ℤ), 0, 2, -1, 5, 0, 0, 3, 1]⟩ : matrix ℤ).entry r c)) :=
  C7_minor_contents ⟨3, 3, [1, 0, 2, -1, 5, 0, 0, 3, 1]⟩ 1 0 (by decide) (by decide)
    (by decide) (by decide) (by decide)

/-- Claim C8: `operator+` fails with `IncompatibleDimensions` exactly when the
shapes differ, and otherwise returns the elementwise sum; the matrix product
fails with `IncompatibleDimensions` exactly when `a.columns ≠ b.rows`.  (Both
operands are pure values in the embedding, hence unchanged.) -/
theorem C8_dimension_errors :
    (∀ a b : matrix T, a.wellFormed → b.wellFormed →
      (a.add b = .error .ERR_INCOMPATIBLE ↔
        (a.m_rows ≠ b.m_rows ∨ a.m_columns ≠ b.m_columns))) ∧
    (∀ a b : matrix T, a.wellFormed → b.wellFormed → a.m_rows = b.m_rows →
      a.m_columns = b.m_columns →
      ∃ m, a.add b = .ok m ∧ m.m_rows = a.m_rows ∧ m.m_columns = a.m_columns ∧
        (∀ r c, r < a.m_rows → c < a.m_columns →
          m.entry r c = a.entry r c + b.entry r c)) ∧
    (∀ a b : matrix T, a.wellFormed → b.wellFormed →
      (a.mat_mul b = .error .ERR_INCOMPATIBLE ↔ a.m_columns ≠ b.m_rows)) := by
  refine ⟨?_, ?_, ?_⟩
  · intro a b ha hb
    constructor
    · intro herr
      by_contra hdim
      have hr : a.m_rows = b.m_rows := by omega
      have hc : a.m_columns = b.m_columns := by omega
      obtain ⟨m, hm, _⟩ := add_spec a b ha hb hr hc
      rw [hm] at herr
      cases herr
    · intro hdim
      unfold matrix.add
      rw [if_pos hdim]
  · intro a b ha hb hr hc
    obtain ⟨m, hm, h1, h2, h3, h4⟩ := add_spec a b ha hb hr hc
    exact ⟨m, hm, h1, h2, h4⟩
  · intro a b ha hb
    constructor
    · intro herr
      by_contra hdim
      have hcompat : a.m_columns = b.m_rows := by omega
      obtain ⟨m, hm, _⟩ := mat_mul_spec a b ha hb hcompat
      rw [hm] at herr
      cases herr
    · intro hdim
      unfold matrix.mat_mul
      rw [if_pos hdim]

/-- Witness for C8: a `(2,3)` plus a `(3,2)` matrix is incompatible, and so is
the product of a `(2,3)` and a `(4,2)` matrix. -/
theorem C8_dimension_errors_witness :
    ((⟨2, 3, [(1 : ℤ), 2, 3, 4, 5, 6]⟩ : matrix ℤ).add
        ⟨3, 2, [1, 2, 3, 4, 5, 6]⟩ = .error .ERR_INCOMPATIBLE ↔
      ((2 : Nat) ≠ 3 ∨ (3 : Nat) ≠ 2)) ∧
    ((⟨2, 3, [(1 : ℤ), 2, 3, 4, 5, 6]⟩ : matrix ℤ).mat_mul
        ⟨4, 2, [1, 2, 3, 4, 5, 6, 7, 8]⟩ = .error .ERR_INCOMPATIBLE ↔
      (3 : Nat) ≠ 4) :=
  ⟨(C8_dimension_errors (T := ℤ)).1 ⟨2, 3, [1, 2, 3, 4, 5, 6]⟩
      ⟨3, 2, [1, 2, 3, 4, 5, 6]⟩ (by decide) (by decide),
    (C8_dimension_errors (T := ℤ)).2.2 ⟨2, 3, [1, 2, 3, 4, 5, 6]⟩
      ⟨4, 2, [1, 2, 3, 4, 5, 6, 7, 8]⟩ (by decide) (by decide)⟩

/-- Claim C9: `transpose()` returns a `(columns, rows)` matrix with
`result(c, r) = a(r, c)`, and transposing twice gives back `a` in shape and
elementwise. -/
theorem C9_transpose_involution :
    (∀ a : matrix T, a.wellFormed →
      ∃ m, a.transpose = .ok m ∧ m.m_rows = a.m_columns ∧ m.m_columns = a.m_rows ∧
        (∀ r c, r < a.m_rows → c < a.m_columns → m.entry c r = a.entry r c)) ∧
    (∀ a m m' : matrix T, a.wellFormed → a.transpose = .ok m → m.transpose = .ok m' →
      m'.m_rows = a.m_rows ∧ m'.m_columns = a.m_columns ∧
      (∀ r c, r < a.m_rows → c < a.m_columns → m'.entry r c = a.entry r c)) := by
  constructor
  · intro a ha
    obtain ⟨m, hm, h1, h2, h3, h4⟩ := transpose_spec a ha
    exact ⟨m, hm, h1, h2, h4⟩
  · intro a m m' ha hm hm'
    obtain ⟨m0, hm0, g1, g2, g3, g4⟩ := transpose_spec a ha
    obtain ⟨hr1, hc1, _⟩ := ha
    rw [hm0] at hm
    have hmm : m = m0 := by cases hm; rfl
    subst hmm
    have hmwf : m.wellFormed := ⟨by omega, by omega, by rw [g3, g1, g2]⟩
    obtain ⟨m1, hm1, f1, f2, f3, f4⟩ := transpose_spec m hmwf
    rw [hm1] at hm'
    have hmm' : m' = m1 := by cases hm'; rfl
    subst hmm'
    refine ⟨by rw [f1, g2], by rw [f2, g1], ?_⟩
    intro r c hr hc
    have h1 := f4 c r (by rw [g1]; exact hc) (by rw [g2]; exact hr)
    rw [h1]
    exact g4 r c hr hc

/-- Witness for C9 on the `2x3` integer matrix `[[1,2,3],[4,5,6]]` and its
double transpose. -/
theorem C9_transpose_involution_witness :
    (⟨2, 3, [(1 : ℤ), 2, 3, 4, 5, 6]⟩ : matrix ℤ).wellFormed ∧
    ((⟨3, 2, [(1 : ℤ), 4, 2, 5, 3, 6]⟩ : matrix ℤ).m_rows = 3 ∧
      (⟨2, 3, [(1 : ℤ), 2, 3, 4, 5, 6]⟩ : matrix ℤ).m_rows = 2 ∧
      (⟨2, 3, [(1 : ℤ), 2, 3, 4, 5, 6]⟩ : matrix ℤ).m_columns = 3 ∧
      (∀ r c, r < 2 → c < 3 →
        (⟨2, 3, [(1 : ℤ), 2, 3, 4, 5, 6]⟩ : matrix ℤ).entry r c =
          (⟨2, 3, [(1 : ℤ), 2, 3, 4, 5, 6]⟩ : matrix ℤ).entry r c)) := by
  constructor
  · decide
  · refine ⟨by decide, by decide, by decide, ?_⟩
    intro r c hr hc
    have h := (C9_transpose_involution (T := ℤ)).2 ⟨2, 3, [1, 2, 3, 4, 5, 6]⟩
      ⟨3, 2, [1, 4, 2, 5, 3, 6]⟩ ⟨2, 3, [1, 2, 3, 4, 5, 6]⟩ (by decide) (by decide)
      (by decide)
    exact h.2.2 r c hr hc

/-- Claim C10: every successfully constructed matrix satisfies
`rows ≥ 1 ∧ columns ≥ 1 ∧ data.length = rows * columns`; the constructor
fails with `InvalidSize` exactly when `rows < 1` or `columns < 1`; flat-list
assignment fails with `IncompatibleDimensions` exactly when the supplied
count differs from `rows * columns` and only then replaces the data; and
every public operation returning a matrix preserves the invariant (for
`minor`, whose preconditions the spec leaves to the caller, any successful
call still yields a well-formed result). -/
theorem C10_wellformedness_invariant :
    (∀ (rows columns : Nat) (fill : T),
      (mk_matrix rows columns fill = .error .ERR_INVALID_SIZE ↔
        rows = 0 ∨ columns = 0)) ∧
    (∀ (rows columns : Nat) (fill : T) (m : matrix T),
      mk_matrix rows columns fill = .ok m →
      m.wellFormed ∧ m.m_rows = rows ∧ m.m_columns = columns) ∧
    (∀ (a : matrix T) (l : List T), a.wellFormed →
      (a.assign l = .error .ERR_INCOMPATIBLE ↔ a.m_rows * a.m_columns ≠ l.length) ∧
      (∀ m, a.assign l = .ok m → m.wellFormed ∧ m.m_data = l ∧
        m.m_rows = a.m_rows ∧ m.m_columns = a.m_columns)) ∧
    (∀ (a : matrix T) (r c : Nat) (v : T) (m : matrix T), a.wellFormed →
      a.set r c v = .ok m → m.wellFormed) ∧
    (∀ (a : matrix T) (row : Nat) (m : matrix T), a.wellFormed →
      a.row_vector row = .ok m → m.wellFormed) ∧
    (∀ (a : matrix T) (c : Nat) (m : matrix T), a.wellFormed →
      a.column_vector c = .ok m → m.wellFormed) ∧
    (∀ (a : matrix T) (lam : Nat → Nat → T → T) (m : matrix T), a.wellFormed →
      a.transform lam = .ok m → m.wellFormed) ∧
    (∀ a b m : matrix T, a.wellFormed → b.wellFormed → a.add b = .ok m →
      m.wellFormed) ∧
    (∀ a b m : matrix T, a.wellFormed → b.wellFormed → a.sub b = .ok m →
      m.wellFormed) ∧
    (∀ a m : matrix T, a.wellFormed → a.neg = .ok m → m.wellFormed) ∧
    (∀ (a : matrix T) (s : T) (m : matrix T), a.wellFormed →
      a.scalar_mul s = .ok m → m.wellFormed) ∧
    (∀ a b m : matrix T, a.wellFormed → b.wellFormed → a.mat_mul b = .ok m →
      m.wellFormed) ∧
    (∀ a m : matrix T, a.wellFormed → a.transpose = .ok m → m.wellFormed) ∧
    (∀ (a : matrix T) (i j : Nat) (m : matrix T), a.minor i j = .ok m →
      m.wellFormed) := by
  refine ⟨?_, ?_, ?_, ?_, ?_, ?_, ?_, ?_, ?_, ?_, ?_, ?_, ?_, ?_⟩
  · intro rows columns fill
    exact mk_matrix_error_iff rows columns fill
  · intro rows columns fill m h
    by_cases hc : rows < 1 ∨ columns < 1
    · rw [show mk_matrix rows columns fill = .error .ERR_INVALID_SIZE from by
        unfold mk_matrix; rw [if_pos hc]] at h
      cases h
    · have hm := mk_matrix_ok_elim rows columns fill m h
      subst hm
      exact ⟨⟨by dsimp only; omega, by dsimp only; omega, by simp⟩, rfl, rfl⟩
  · intro a l ha
    constructor
    · unfold matrix.assign
      by_cases hlen : a.m_rows * a.m_columns ≠ l.length
      · rw [if_pos hlen]
        simp [hlen]
      · rw [if_neg hlen]
        simp [hlen]
    · intro m h
      unfold matrix.assign at h
      by_cases hlen : a.m_rows * a.m_columns ≠ l.length
      · rw [if_pos hlen] at h
        cases h
      · rw [if_neg hlen] at h
        cases h
        exact ⟨⟨ha.1, ha.2.1, by dsimp only; omega⟩, rfl, rfl, rfl⟩
  · intro a r c v m ha h
    by_cases hr : r < a.m_rows
    · by_cases hc : c < a.m_columns
      · rw [set_ok a r c v hr hc] at h
        cases h
        exact ⟨ha.1, ha.2.1, by simpa [List.length_set] using ha.2.2⟩
      · unfold matrix.set at h
        rw [if_neg (by omega), if_pos (by omega)] at h
        cases h
    · rw [set_row_oob a r c v (by omega)] at h
      cases h
  · intro a row m ha h
    by_cases hrow : row < a.m_rows
    · obtain ⟨m', hm', h1, h2, h3, _⟩ := row_vector_spec a row ha hrow
      rw [hm'] at h
      cases h
      exact ⟨by omega, by rw [h2]; exact ha.2.1, by rw [h3, h1, h2]⟩
    · unfold matrix.row_vector at h
      rw [if_pos (by omega)] at h
      cases h
  · intro a c m ha h
    by_cases hcol : c < a.m_columns
    · by_cases hle : a.m_rows ≤ a.m_columns
      · obtain ⟨m', hm', h1, h2, h3, _⟩ := column_vector_spec_le a c ha hcol hle
        rw [hm'] at h
        cases h
        exact ⟨by rw [h1]; exact ha.2.1, by omega, by rw [h3, h1, h2]⟩
      · rw [column_vector_spec_gt a c ha hcol (by omega)] at h
        cases h
    · rw [column_vector_col_oob a c (by omega)] at h
      cases h
  · intro a lam m ha h
    obtain ⟨m', hm', h1, h2, h3, _⟩ := transform_spec a lam ha
    rw [hm'] at h
    cases h
    exact ⟨by rw [h1]; exact ha.1, by rw [h2]; exact ha.2.1,
      by rw [h3, h1, h2]; exact ha.2.2⟩
  · intro a b m ha hb h
    by_cases hdim : a.m_rows = b.m_rows ∧ a.m_columns = b.m_columns
    · obtain ⟨m', hm', h1, h2, h3, _⟩ := add_spec a b ha hb hdim.1 hdim.2
      rw [hm'] at h
      cases h
      exact ⟨by rw [h1]; exact ha.1, by rw [h2]; exact ha.2.1, by rw [h3, h1, h2]⟩
    · unfold matrix.add at h
      rw [if_pos (by omega)] at h
      cases h
  · intro a b m ha hb h
    by_cases hdim : a.m_rows = b.m_rows ∧ a.m_columns = b.m_columns
    · obtain ⟨m', hm', h1, h2, h3, _⟩ := sub_spec a b ha hb hdim.1 hdim.2
      rw [hm'] at h
      cases h
      exact ⟨by rw [h1]; exact ha.1, by rw [h2]; exact ha.2.1, by rw [h3, h1, h2]⟩
    · unfold matrix.sub at h
      rw [if_pos (by omega)] at h
      cases h
  · intro a m ha h
    obtain ⟨m', hm', h1, h2, h3, _⟩ := neg_spec a ha
    rw [hm'] at h
    cases h
    exact ⟨by rw [h1]; exact ha.1, by rw [h2]; exact ha.2.1, by rw [h3, h1, h2]⟩
  · intro a s m ha h
    obtain ⟨m', hm', h1, h2, h3, _⟩ := scalar_mul_spec a s ha
    rw [hm'] at h
    cases h
    exact ⟨by rw [h1]; exact ha.1, by rw [h2]; exact ha.2.1, by rw [h3, h1, h2]⟩
  · intro a b m ha hb h
    by_cases hcompat : a.m_columns = b.m_rows
    · obtain ⟨m', hm', h1, h2, h3, _⟩ := mat_mul_spec a b ha hb hcompat
      rw [hm'] at h
      cases h
      exact ⟨by rw [h1]; exact ha.1, by rw [h2]; exact hb.2.1, by rw [h3, h1, h2]⟩
    · unfold matrix.mat_mul at h
      rw [if_pos (by omega)] at h
      cases h
  · intro a m ha h
    obtain ⟨m', hm', h1, h2, h3, _⟩ := transpose_spec a ha
    rw [hm'] at h
    cases h
    exact ⟨by rw [h1]; exact ha.2.1, by rw [h2]; exact ha.1, by rw [h3, h1, h2]⟩
  · intro a i j m h
    obtain ⟨h1, h2, h3, h4, h5⟩ := minor_ok_shape a i j m h
    exact ⟨by omega, by omega, by rw [h3, h1, h2]⟩

/-- Witness for C10: the constructor at `(2, 2, 0)` over `ℤ` yields a
well-formed matrix, and assigning a correctly sized flat list to it replaces
the data. -/
theorem C10_wellformedness_invariant_witness :
    ((⟨2, 2, [(0 : ℤ), 0, 0, 0]⟩ : matrix ℤ).wellFormed ∧
      (⟨2, 2, [(0 : ℤ), 0, 0, 0]⟩ : matrix ℤ).m_rows = 2 ∧
      (⟨2, 2, [(0 : ℤ), 0, 0, 0]⟩ : matrix ℤ).m_columns = 2) ∧
    ((⟨2, 2, [(1 : ℤ), 2, 3, 4]⟩ : matrix ℤ).wellFormed ∧
      (⟨2, 2, [(1 : ℤ), 2, 3, 4]⟩ : matrix ℤ).m_data = [1, 2, 3, 4] ∧
      (⟨2, 2, [(1 : ℤ), 2, 3, 4]⟩ : matrix ℤ).m_rows = 2 ∧
      (⟨2, 2, [(1 : ℤ), 2, 3, 4]⟩ : matrix ℤ).m_columns = 2) :=
  ⟨(C10_wellformedness_invariant (T := ℤ)).2.1 2 2 0 ⟨2, 2, [0, 0, 0, 0]⟩ (by decide),
    ((C10_wellformedness_invariant (T := ℤ)).2.2.1 ⟨2, 2, [(0 : ℤ), 0, 0, 0]⟩
      [1, 2, 3, 4] (by decide)).2 ⟨2, 2, [1, 2, 3, 4]⟩ (by decide)⟩

end MatrixLib